import Mathlib

/-!
Shallow embedding of the TheanoLM vocabulary subsystem
(`src/theanolm/vocabulary/vocabulary.py`).

Conventions of the embedding:
* Python lists become Lean `List`s; numpy arrays of ints/floats become
  `List Nat` / `List ℚ` (word counts are natural numbers, probabilities are
  rationals; the float arithmetic of the source is exact on the operations
  exercised here: assignment, sum, division).
* A Python `dict` is modelled as an association list in insertion order.
* Fallible code (raising exceptions) is modelled with `Option` / `Except`.
* The file `wordclass.py` of the repository is not available, so `WordClass`
  is modelled from the spec (section 4.1); every such definition is marked
  in its doc comment.
-/

set_option maxRecDepth 10000

/-- Decidable equality for `Except`, used to evaluate the embedded
operations on concrete inputs. -/
instance {ε α : Type} [DecidableEq ε] [DecidableEq α] : DecidableEq (Except ε α) := by
  intro x y
  cases x <;> cases y
  case error.error a b =>
    by_cases h : a = b
    · exact .isTrue (by rw [h])
    · exact .isFalse (by intro hh; injection hh; exact h (by assumption))
  case error.ok a b => exact .isFalse (by intro hh; cases hh)
  case ok.error a b => exact .isFalse (by intro hh; cases hh)
  case ok.ok a b =>
    by_cases h : a = b
    · exact .isTrue (by rw [h])
    · exact .isFalse (by intro hh; injection hh; exact h (by assumption))

/-- Sentence-start sentinel token `<s>`. -/
def sosToken : String := "<s>"

/-- Sentence-end sentinel token `</s>`. -/
def eosToken : String := "</s>"

/-- Unknown-word sentinel token `<unk>`. -/
def unkToken : String := "<unk>"

/-- Modelled from the spec: spec section 4.1 describes `WordClass`
(`wordclass.py`, absent from the sources) as a set of words sharing a class
ID, a mapping from word ID to membership probability kept in insertion
order. `classId` is the immutable integer identity, `members` the ordered
(word ID, probability) pairs. -/
structure WordClass where
  classId : Nat
  members : List (Nat × ℚ)
deriving DecidableEq

instance : Inhabited WordClass := ⟨⟨0, []⟩⟩

/-- Modelled from the spec: a `WordClass` is "created with one seed word at
probability p". -/
def WordClass.init (classId wordId : Nat) (prob : ℚ) : WordClass :=
  ⟨classId, [(wordId, prob)]⟩

/-- Modelled from the spec: `add(word_id, prob)` inserts a new member with
the given initial probability. The source fails with `DuplicateMemberError`
when `word_id` is already present; every call site in `vocabulary.py`
passes a freshly allocated word ID, so the total append is faithful there. -/
def WordClass.add (wc : WordClass) (wordId : Nat) (prob : ℚ) : WordClass :=
  ⟨wc.classId, wc.members ++ [(wordId, prob)]⟩

/-- Modelled from the spec: `get_prob(word_id)` returns the stored
probability; `none` models the `UnknownMemberError` raised when the word is
absent. -/
def WordClass.get_prob (wc : WordClass) (wordId : Nat) : Option ℚ :=
  List.lookup wordId wc.members

/-- Modelled from the spec: `normalize_probs()` divides every member's
probability by the class total so they sum to 1; if the total is zero, it
assigns each member `1/size`. -/
def WordClass.normalize_probs (wc : WordClass) : WordClass :=
  let total : ℚ := (wc.members.map Prod.snd).sum
  if total = 0 then
    ⟨wc.classId, wc.members.map (fun m => (m.1, 1 / (wc.members.length : ℚ)))⟩
  else
    ⟨wc.classId, wc.members.map (fun m => (m.1, m.2 / total))⟩

/-- Intermediate state of `Vocabulary.__init__`: the three parallel
structures the constructor mutates before freezing them. -/
structure BuildState where
  idw : List String
  w2c : List Nat
  wcs : List WordClass
deriving DecidableEq

/-- One special-token block of `Vocabulary.__init__` (lines 54-79): if the
token is missing from `id_to_word`, append it with a fresh word ID and a
fresh singleton class of probability 1.0. -/
def addSpecialToken (tok : String) (st : BuildState) : BuildState :=
  if tok ∈ st.idw then st
  else
    let wordId := st.idw.length
    let classId := st.wcs.length
    ⟨st.idw ++ [tok], st.w2c ++ [classId], st.wcs ++ [WordClass.init classId wordId 1]⟩

/-- The `oos_words` loop of `Vocabulary.__init__` (lines 81-84): append each
out-of-shortlist word to `id_to_word` unless already present. -/
def appendOos (idw : List String) : Option (List String) → List String
  | none => idw
  | some ws => ws.foldl (fun acc w => if w ∈ acc then acc else acc ++ [w]) idw

/-- Python's `word.startswith('<')` for the one-character sentinel marker:
true exactly when the first character of the word is `<`. -/
def sentinelMarked (w : String) : Bool :=
  match w.data with
  | c :: _ => c = '<'
  | [] => false

/-- The shape tested by the `num_normal_classes` scan of
`Vocabulary.__init__` (lines 86-94): a class with exactly one member whose
word string starts with the character `<`. Out-of-range word IDs (an
`IndexError` in the source, unreachable for constructor-built classes) are
mapped to `false`. -/
def isSentinelSingleton (idw : List String) (wc : WordClass) : Bool :=
  match wc.members with
  | [m] =>
    match idw.get? m.1 with
    | some w => sentinelMarked w
    | none => false
  | _ => false

/-- The backward scan of `Vocabulary.__init__` (lines 86-95): starting at
the last class index, step over sentinel singleton classes; the result is
the stopping index plus one.  `numNormalFrom idw wcs n` scans downward from
index `n - 1`. The `none` branch models an out-of-range index and is
unreachable for `n ≤ wcs.length`. -/
def numNormalFrom (idw : List String) (wcs : List WordClass) : Nat → Nat
  | 0 => 0
  | n + 1 =>
    match wcs.get? n with
    | some wc => if isSentinelSingleton idw wc then numNormalFrom idw wcs n else n + 1
    | none => n + 1

/-- The `Vocabulary` object: word list, shortlist word-to-class mapping,
class list, the computed `num_normal_classes`, and the optional unigram
probability array (`_unigram_probs`). -/
structure Vocabulary where
  id_to_word : List String
  word_id_to_class_id : List Nat
  word_classes : List WordClass
  num_normal_classes : Nat
  unigram_probs : Option (List ℚ)
deriving DecidableEq

instance : Inhabited Vocabulary := ⟨⟨[], [], [], 0, none⟩⟩

/-- Errors of the vocabulary module: `valueError` is the constructor's
equal-length check, `inputFieldCount` and `inputDuplicate` are the two
`InputError`s of `from_file` (carrying the data the source interpolates
into the message), `stateMissing` is `IncompatibleStateError`,
`stateInvalid` stands for the crash of `from_state` on a state whose class
IDs leave a gap (the source would fail iterating a `None` class), and
`unknownMember` is `WordClass.get_prob`'s `UnknownMemberError` surfacing
through `get_state`. -/
inductive VocabError where
  | valueError
  | inputFieldCount (count : Nat) (line : List String)
  | inputDuplicate (word : String)
  | stateMissing (key : String)
  | stateInvalid
  | unknownMember
deriving DecidableEq

/-- `Vocabulary.__init__` (lines 50-105): reject unequal-length inputs,
append the three sentinel tokens when missing, append out-of-shortlist
words, compute `num_normal_classes` by the backward scan, and normalize
every class. -/
def Vocabulary.make (id2w : List String) (w2c : List Nat) (wcs : List WordClass)
    (oosWords : Option (List String)) : Except VocabError Vocabulary :=
  if id2w.length ≠ w2c.length then .error .valueError
  else
    let st1 := addSpecialToken sosToken ⟨id2w, w2c, wcs⟩
    let st2 := addSpecialToken eosToken st1
    let st3 := addSpecialToken unkToken st2
    let idw := appendOos st3.idw oosWords
    let nnc := numNormalFrom idw st3.wcs st3.wcs.length
    .ok ⟨idw, st3.w2c, st3.wcs.map WordClass.normalize_probs, nnc, none⟩

/-- Helper for `word_to_id`: return the index (offset by `i`) of the last
occurrence of `w`. -/
def wordToIdAux (w : String) : List String → Nat → Option Nat
  | [], _ => none
  | x :: xs, i =>
    match wordToIdAux w xs (i + 1) with
    | some j => some j
    | none => if x = w then some i else none

/-- The `word_to_id` dictionary of `Vocabulary.__init__` (line 103), built
by comprehension over `enumerate(id_to_word)`: each word maps to its last
index (later entries overwrite earlier ones). -/
def word_to_id (idw : List String) (w : String) : Option Nat :=
  wordToIdAux w idw 0

/-- `Vocabulary.num_words` (line 390). -/
def Vocabulary.num_words (v : Vocabulary) : Nat := v.id_to_word.length

/-- `Vocabulary.num_shortlist_words` (line 400). -/
def Vocabulary.num_shortlist_words (v : Vocabulary) : Nat :=
  v.word_id_to_class_id.length

/-- `Vocabulary.num_classes` (line 409). -/
def Vocabulary.numOfClasses (v : Vocabulary) : Nat := v.word_classes.length

/-- `Vocabulary.in_shortlist` (line 500). -/
def Vocabulary.in_shortlist (v : Vocabulary) (wid : Nat) : Bool :=
  wid < v.num_shortlist_words

/-- `Vocabulary.has_unigram_probs` (line 511). -/
def Vocabulary.has_unigram_probs (v : Vocabulary) : Bool :=
  v.unigram_probs.isSome

/-- `Vocabulary.words_to_ids` (lines 411-428): look `<unk>` up first (a
`KeyError`, modelled as `none`, if absent — unreachable after
construction), then map every word to its ID, defaulting to `<unk>`'s. -/
def Vocabulary.words_to_ids (v : Vocabulary) (ws : List String) : Option (List Nat) :=
  match word_to_id v.id_to_word unkToken with
  | none => none
  | some unkId => some (ws.map (fun w => (word_to_id v.id_to_word w).getD unkId))

/-- `Vocabulary.get_word_prob` (lines 444-456): class ID of the word, then
that class's stored probability. `none` models the index / member errors of
the source for invalid IDs. -/
def Vocabulary.get_word_prob (v : Vocabulary) (wid : Nat) : Option ℚ :=
  match v.word_id_to_class_id.get? wid with
  | none => none
  | some cid =>
    match v.word_classes.get? cid with
    | none => none
    | some wc => wc.get_prob wid

/-- Format argument of `Vocabulary.from_file`. -/
inductive VocabFormat where
  | words
  | classes
  | srilmClasses
deriving DecidableEq

/-- The class-ID key read from one vocabulary-file line: `None` for the
"words" format, the parsed integer for "classes", the raw class-name token
for "srilm-classes" (the source keeps it as a string). -/
inductive FileId where
  | noneId
  | intId (i : Int)
  | strId (s : String)
deriving DecidableEq

/-- Accumulator of the `from_file` reading loop (lines 143-150): the set of
words seen so far, the three lists under construction, and the mapping from
file class IDs to internal class IDs. -/
structure FileState where
  seen : List String
  idw : List String
  w2c : List Nat
  wcs : List WordClass
  fmap : List (FileId × Nat)
deriving DecidableEq

/-- Empty initial `FileState` of `from_file`. -/
def initFileState : FileState := ⟨[], [], [], [], []⟩

/-- The format dispatch of `from_file` (lines 157-171): match the declared
format against the field count, producing the word, file class ID and
initial probability, or the `InputError` citing the field count and the
line. `pi` and `pf` model Python's `int()` and `float()` (their failure on
unparsable tokens is outside the claims). -/
def parseFields (pi : String → Int) (pf : String → ℚ) (fmt : VocabFormat)
    (fields : List String) : Except VocabError (String × FileId × ℚ) :=
  match fmt, fields with
  | .words, [w] => .ok (w, .noneId, 1)
  | .classes, [w, f] => .ok (w, .intId (pi f), 1)
  | .srilmClasses, [c, p, w] => .ok (w, .strId c, pf p)
  | _, fs => .error (.inputFieldCount fs.length fs)

/-- Word insertion of the `from_file` loop (lines 176-192): record the word,
give it the next word ID, and either join the already-mapped class or open
a new class (registering the file ID unless it is `None`). -/
def pushFileWord (st : FileState) (w : String) (fid : FileId) (prob : ℚ) : FileState :=
  let wordId := st.idw.length
  let idw := st.idw ++ [w]
  match List.lookup fid st.fmap with
  | some cid =>
    ⟨st.seen ++ [w], idw, st.w2c ++ [cid],
      st.wcs.set cid ((st.wcs.getD cid default).add wordId prob), st.fmap⟩
  | none =>
    let cid := st.wcs.length
    let fmap := match fid with
      | .noneId => st.fmap
      | _ => st.fmap ++ [(fid, cid)]
    ⟨st.seen ++ [w], idw, st.w2c ++ [cid],
      st.wcs ++ [WordClass.init cid wordId prob], fmap⟩

/-- One iteration of the `from_file` loop (lines 152-192). A line is
modelled as its whitespace-split field list; a blank (or all-whitespace)
line has no fields and is skipped. A word seen before yields the
duplicate-word `InputError`. -/
def processLine (pi : String → Int) (pf : String → ℚ) (fmt : VocabFormat)
    (st : FileState) (fields : List String) : Except VocabError FileState :=
  if fields = [] then .ok st
  else
    match parseFields pi pf fmt fields with
    | .error e => .error e
    | .ok (w, fid, prob) =>
      if w ∈ st.seen then .error (.inputDuplicate w)
      else .ok (pushFileWord st w fid prob)

/-- `Vocabulary.from_file` (lines 107-194): fold the reading loop over the
lines and feed the result to the constructor together with the
out-of-shortlist words. -/
def Vocabulary.from_file (pi : String → Int) (pf : String → ℚ) (fmt : VocabFormat)
    (lines : List (List String)) (oosWords : Option (List String)) :
    Except VocabError Vocabulary :=
  match lines.foldlM (processLine pi pf fmt) initFileState with
  | .error e => .error e
  | .ok st => Vocabulary.make st.idw st.w2c st.wcs oosWords

/-- The sentinel deletion of `from_word_counts` (lines 213-219): drop the
three special tokens from the count map. -/
def removeSpecialCounts (wcl : List (String × Nat)) : List (String × Nat) :=
  wcl.filter (fun e => e.1 ≠ sosToken ∧ e.1 ≠ eosToken ∧ e.1 ≠ unkToken)

/-- The assignment loop of `from_word_counts` (lines 228-243), consuming
the count-sorted word list while tracking the running class counter:
each word receives the next word ID, joins class `class_id` (created on
first use) with probability 1.0, and the counter advances modulo
`numClasses`. The source raises `ZeroDivisionError` when `numClasses = 0`
and words remain; Lean's `% 0` keeps the counter unchanged there. -/
def assignCountedWords (numClasses : Nat) : List (String × Nat) → Nat → BuildState → BuildState
  | [], _, st => st
  | e :: rest, classId, st =>
    let wordId := st.idw.length
    let wcs :=
      if classId < st.wcs.length then
        st.wcs.set classId ((st.wcs.getD classId default).add wordId 1)
      else
        st.wcs ++ [WordClass.init classId wordId 1]
    assignCountedWords numClasses rest ((classId + 1) % numClasses)
      ⟨st.idw ++ [e.1], st.w2c ++ [classId], wcs⟩

/-- The comparison of `sorted(word_counts.items(), key=lambda x: x[1])`:
order the (word, count) pairs by count. -/
def countLe (a b : String × Nat) : Prop := a.2 ≤ b.2

instance : DecidableRel countLe := fun a b => Nat.decLe a.2 b.2

instance : IsTotal (String × Nat) countLe := ⟨fun a b => Nat.le_total a.2 b.2⟩

instance : IsTrans (String × Nat) countLe := ⟨fun _ _ _ => Nat.le_trans⟩

/-- `Vocabulary.from_word_counts` (lines 196-245): strip the sentinel
tokens, sort the remaining (word, count) pairs by ascending count with
Python's stable sort (insertion sort is stable, like Python's), round-robin
them into `numClasses` classes (default: one class per word), and call the
constructor. -/
def Vocabulary.from_word_counts (wcl : List (String × Nat)) (numClassesOpt : Option Nat) :
    Except VocabError Vocabulary :=
  let filtered := removeSpecialCounts wcl
  let numClasses := numClassesOpt.getD filtered.length
  let sorted := List.insertionSort countLe filtered
  let st := assignCountedWords numClasses sorted 0 ⟨[], [], []⟩
  Vocabulary.make st.idw st.w2c st.wcs none

/-- The persisted-state schema read and written by the vocabulary (HDF5
group `vocabulary`): the three required parallel arrays and the optional
unigram array. A `none` field models a missing key. -/
structure H5State where
  words : Option (List String)
  classes : Option (List Nat)
  probs : Option (List ℚ)
  unigramProbs : Option (List ℚ)
deriving DecidableEq

/-- `max()` over the loaded `classes` array (line 276); numpy raises on an
empty array, which `from_state` handles as a separate error case. -/
def maxClassId (cs : List Nat) : Nat := cs.foldl max 0

/-- The body of the grouping loop of `from_state` (lines 280-285): seed the
class slot with the word when the slot is still empty, extend it
otherwise. -/
def slotInsert (slots : List (Option WordClass)) (cid wid : Nat) (p : ℚ) :
    List (Option WordClass) :=
  match slots.getD cid none with
  | none => slots.set cid (some (WordClass.init cid wid p))
  | some wc => slots.set cid (some (wc.add wid p))

/-- The grouping loop of `from_state` (lines 279-285): walk the probability
array with its word IDs, and for each word either seed its class slot or
add the word to it. Out-of-range word IDs (an `IndexError` in the source
when `probs` is longer than `classes`) read class 0 here; the claims only
use equal-length states. -/
def buildSlots (cs : List Nat) : List ℚ → Nat → List (Option WordClass) → List (Option WordClass)
  | [], _, slots => slots
  | p :: ps, wid, slots =>
    buildSlots cs ps (wid + 1) (slotInsert slots (cs.getD wid 0) wid p)

/-- Collapse a list of optional classes, failing when any slot is `none`. -/
def allSome : List (Option WordClass) → Option (List WordClass)
  | [] => some []
  | none :: _ => none
  | some x :: rest => (allSome rest).map (fun l => x :: l)

/-- `Vocabulary.from_state` (lines 247-294): check the three required keys
in order, group the stored probabilities into classes by stored class ID,
run the constructor, and install the optional stored unigram array. An
empty `classes` array (numpy `max` raises) and a gap in the class IDs (the
source would crash on the `None` slot) are modelled as errors. -/
def Vocabulary.from_state (st : H5State) : Except VocabError Vocabulary :=
  match st.words with
  | none => .error (.stateMissing ("words"))
  | some ws =>
    match st.classes with
    | none => .error (.stateMissing ("classes"))
    | some cs =>
      match st.probs with
      | none => .error (.stateMissing ("probs"))
      | some ps =>
        if cs = [] then .error .stateInvalid
        else
          let slots := buildSlots cs ps 0 (List.replicate (maxClassId cs + 1) none)
          match allSome slots with
          | none => .error .stateInvalid
          | some wcs =>
            match Vocabulary.make ws cs wcs none with
            | .error e => .error e
            | .ok v =>
              .ok ⟨v.id_to_word, v.word_id_to_class_id, v.word_classes,
                v.num_normal_classes, st.unigramProbs⟩

/-- The `probs` comprehension of `get_state` (lines 368-369), walking
`enumerate(word_id_to_class_id)` with the running word ID: for each
shortlist word, its class's stored probability; `none` models the
`UnknownMemberError` (or index error) on a vocabulary whose class objects
disagree with the word-to-class mapping. -/
def collectProbs (wcs : List WordClass) : List Nat → Nat → Option (List ℚ)
  | [], _ => some []
  | cid :: rest, wid =>
    match (wcs.getD cid default).get_prob wid with
    | none => none
    | some p => (collectProbs wcs rest (wid + 1)).map (fun l => p :: l)

/-- The `probs` dataset written by `get_state`: one stored probability per
shortlist word. -/
def shortlistProbs (v : Vocabulary) : Option (List ℚ) :=
  collectProbs v.word_classes v.word_id_to_class_id 0

/-- `Vocabulary.get_state` (lines 342-380) on a fresh store: create the
`words`, `classes` and `probs` datasets, and `unigram_probs` when
available. -/
def Vocabulary.get_state (v : Vocabulary) : Except VocabError H5State :=
  match shortlistProbs v with
  | none => .error .unknownMember
  | some ps => .ok ⟨some v.id_to_word, some v.word_id_to_class_id, some ps, v.unigram_probs⟩

/-- The dense count array of `compute_probs` (lines 311-316): start from
zeros over every word ID, and for each counted word present in the
vocabulary store its count at its word ID (the source's guard
`word_id < counts.size` is kept, though always true). -/
def rawCounts (v : Vocabulary) (wcl : List (String × Nat)) : List Nat :=
  wcl.foldl
    (fun acc e =>
      match word_to_id v.id_to_word e.1 with
      | some i => if i < acc.length then acc.set i e.2 else acc
      | none => acc)
    (List.replicate v.num_words 0)

/-- The sentinel-count floor of `compute_probs` (lines 322-327): raise the
counts of `<s>`, `</s>` and `<unk>` to at least one. The fallback branch
models the `KeyError` on a vocabulary missing a sentinel, unreachable after
construction. -/
def adjustCounts (v : Vocabulary) (counts : List Nat) : List Nat :=
  match word_to_id v.id_to_word sosToken, word_to_id v.id_to_word eosToken,
      word_to_id v.id_to_word unkToken with
  | some s, some e, some u =>
    let c1 := counts.set s (max (counts.getD s 0) 1)
    let c2 := c1.set e (max (c1.getD e 0) 1)
    c2.set u (max (c2.getD u 0) 1)
  | _, _, _ => counts

/-- The per-class update of `compute_probs` (lines 329-340): set every
member's probability to its count over the class's total count, or to
`1/len` when the total is zero. The source collects the counts in a
per-class dict first; for the duplicate-free member lists produced by
construction this equals the direct sum used here. -/
def updateClassProbs (counts : List Nat) (wc : WordClass) : WordClass :=
  let total : Nat := (wc.members.map (fun m => counts.getD m.1 0)).sum
  if 0 < total then
    ⟨wc.classId, wc.members.map (fun m => (m.1, (counts.getD m.1 0 : ℚ) / (total : ℚ)))⟩
  else
    ⟨wc.classId, wc.members.map (fun m => (m.1, 1 / (wc.members.length : ℚ)))⟩

/-- `Vocabulary.compute_probs` (lines 296-340): build the dense count
array, derive `unigram_probs` by dividing by the total count (the source
has no zero guard here: numpy produces NaNs on a zero total, modelled by
rational division's zero-denominator convention), and when
`updateClassProbs` is requested, floor the sentinel counts at one and
recompute every class's membership probabilities. -/
def Vocabulary.compute_probs (v : Vocabulary) (wcl : List (String × Nat))
    (updateClasses : Bool) : Vocabulary :=
  let counts := rawCounts v wcl
  let unigram := counts.map (fun c : Nat => (c : ℚ) / ((counts.sum : Nat) : ℚ))
  if updateClasses then
    let adj := adjustCounts v counts
    ⟨v.id_to_word, v.word_id_to_class_id, v.word_classes.map (updateClassProbs adj),
      v.num_normal_classes, some unigram⟩
  else
    ⟨v.id_to_word, v.word_id_to_class_id, v.word_classes, v.num_normal_classes, some unigram⟩

/-- The array transformation inside `get_oos_logprobs` (lines 529-533)
before the final elementwise `log`: copy the unigram array, overwrite the
shortlist prefix with 1.0, and divide the out-of-shortlist tail by its
total. `oosScale shortN total i u` processes `u` starting at word ID `i`. -/
def oosScale (shortN : Nat) (total : ℚ) : Nat → List ℚ → List ℚ
  | _, [] => []
  | i, q :: qs => (if i < shortN then 1 else q / total) :: oosScale shortN total (i + 1) qs

/-- `Vocabulary.get_oos_logprobs` (lines 513-534), up to the final
elementwise natural logarithm: the source returns `numpy.log` of this
array, so a statement about the exponentials of the returned entries is a
statement about these values. `none` models the `TypeError` when
`_unigram_probs` is `None` (the caller must check `has_unigram_probs`). -/
def oosProbsArr (v : Vocabulary) : Option (List ℚ) :=
  match v.unigram_probs with
  | none => none
  | some u =>
    let shortN := v.word_id_to_class_id.length
    let total := (u.drop shortN).sum
    some (oosScale shortN total 0 u)

/-! ### Basic lemmas about the word-to-ID dictionary -/

/-- A successful auxiliary lookup returns an index at or beyond the offset,
holding the looked-up word. -/
theorem wordToIdAux_some {w : String} :
    ∀ (l : List String) (i j : Nat), wordToIdAux w l i = some j →
      i ≤ j ∧ l.get? (j - i) = some w := by
  intro l
  induction l with
  | nil => intro i j h; simp [wordToIdAux] at h
  | cons x xs ih =>
    intro i j h
    unfold wordToIdAux at h
    cases h' : wordToIdAux w xs (i + 1) with
    | some j' =>
      rw [h'] at h
      have hj : j' = j := by injection h
      subst hj
      obtain ⟨hle, hget⟩ := ih (i + 1) j' h'
      constructor
      · omega
      · have : j' - i = (j' - (i + 1)) + 1 := by omega
        rw [this]
        simpa using hget
    | none =>
      rw [h'] at h
      by_cases hw : x = w
      · rw [if_pos hw] at h
        cases h
        subst hw
        simp
      · rw [if_neg hw] at h
        cases h

/-- The auxiliary lookup fails exactly when the word is absent. -/
theorem wordToIdAux_none {w : String} :
    ∀ (l : List String) (i : Nat), wordToIdAux w l i = none ↔ w ∉ l := by
  intro l
  induction l with
  | nil => intro i; simp [wordToIdAux]
  | cons x xs ih =>
    intro i
    unfold wordToIdAux
    cases h' : wordToIdAux w xs (i + 1) with
    | some j' =>
      simp only [List.mem_cons]
      constructor
      · intro h; cases h
      · intro h
        exfalso
        have : w ∈ xs := by
          by_contra hmem
          rw [← ih (i + 1)] at hmem
          rw [hmem] at h'
          cases h'
        exact h (Or.inr this)
    | none =>
      have hxs : w ∉ xs := ((ih (i + 1)).mp h')
      by_cases hw : x = w
      · simp [hw]
      · simp [hw, hxs, Ne.symm hw]

/-- A successful `word_to_id` lookup returns an index holding the word. -/
theorem word_to_id_get {idw : List String} {w : String} {j : Nat}
    (h : word_to_id idw w = some j) : idw.get? j = some w := by
  have := wordToIdAux_some idw 0 j h
  simpa using this.2

/-- `word_to_id` fails exactly on out-of-vocabulary words. -/
theorem word_to_id_eq_none_iff {idw : List String} {w : String} :
    word_to_id idw w = none ↔ w ∉ idw :=
  wordToIdAux_none idw 0

/-- `word_to_id` succeeds exactly on vocabulary words. -/
theorem word_to_id_isSome_iff {idw : List String} {w : String} :
    (word_to_id idw w).isSome ↔ w ∈ idw := by
  cases h : word_to_id idw w with
  | none => simpa [h] using (word_to_id_eq_none_iff.mp h)
  | some j =>
    simp only [Option.isSome_some, true_iff]
    by_contra hmem
    rw [← word_to_id_eq_none_iff] at hmem
    rw [hmem] at h
    cases h

/-- Two words mapping to the same ID are equal. -/
theorem word_to_id_inj {idw : List String} {w₁ w₂ : String} {j : Nat}
    (h₁ : word_to_id idw w₁ = some j) (h₂ : word_to_id idw w₂ = some j) : w₁ = w₂ := by
  have g₁ := word_to_id_get h₁
  have g₂ := word_to_id_get h₂
  rw [g₁] at g₂
  cases g₂
  rfl

/-- A successful `word_to_id` lookup is within the word list. -/
theorem word_to_id_lt {idw : List String} {w : String} {j : Nat}
    (h : word_to_id idw w = some j) : j < idw.length := by
  have := word_to_id_get h
  exact List.get?_eq_some.mp this |>.1

/-! ### Structure of the canonical constructor -/

/-- The chain of the three sentinel-token blocks of `Vocabulary.__init__`. -/
def sentinelChain (st : BuildState) : BuildState :=
  addSpecialToken unkToken (addSpecialToken eosToken (addSpecialToken sosToken st))

/-- Inversion of a successful construction: the fields of the result in
terms of the constructor's intermediate state. -/
theorem make_eq_ok {i2w : List String} {w2c : List Nat} {wcs : List WordClass}
    {oos : Option (List String)} {v : Vocabulary}
    (h : Vocabulary.make i2w w2c wcs oos = .ok v) :
    i2w.length = w2c.length ∧
    v = ⟨appendOos (sentinelChain ⟨i2w, w2c, wcs⟩).idw oos,
        (sentinelChain ⟨i2w, w2c, wcs⟩).w2c,
        (sentinelChain ⟨i2w, w2c, wcs⟩).wcs.map WordClass.normalize_probs,
        numNormalFrom (appendOos (sentinelChain ⟨i2w, w2c, wcs⟩).idw oos)
          (sentinelChain ⟨i2w, w2c, wcs⟩).wcs
          (sentinelChain ⟨i2w, w2c, wcs⟩).wcs.length,
        none⟩ := by
  unfold Vocabulary.make at h
  by_cases hl : i2w.length = w2c.length
  · rw [if_neg (by omega)] at h
    cases h
    exact ⟨hl, rfl⟩
  · rw [if_pos hl] at h
    cases h

/-- `addSpecialToken` only appends to the three lists. -/
theorem addSpecialToken_ext (tok : String) (st : BuildState) :
    ∃ tw tc tk, (addSpecialToken tok st).idw = st.idw ++ tw ∧
      (addSpecialToken tok st).w2c = st.w2c ++ tc ∧
      (addSpecialToken tok st).wcs = st.wcs ++ tk := by
  unfold addSpecialToken
  by_cases hmem : tok ∈ st.idw
  · exact ⟨[], [], [], by simp [hmem]⟩
  · exact ⟨[tok], [st.wcs.length], [WordClass.init st.wcs.length st.idw.length 1],
      by simp [hmem]⟩

/-- The sentinel chain only appends to the three lists. -/
theorem sentinelChain_ext (st : BuildState) :
    ∃ tw tc tk, (sentinelChain st).idw = st.idw ++ tw ∧
      (sentinelChain st).w2c = st.w2c ++ tc ∧
      (sentinelChain st).wcs = st.wcs ++ tk := by
  obtain ⟨tw₁, tc₁, tk₁, h₁, h₂, h₃⟩ := addSpecialToken_ext sosToken st
  obtain ⟨tw₂, tc₂, tk₂, g₁, g₂, g₃⟩ := addSpecialToken_ext eosToken (addSpecialToken sosToken st)
  obtain ⟨tw₃, tc₃, tk₃, k₁, k₂, k₃⟩ :=
    addSpecialToken_ext unkToken (addSpecialToken eosToken (addSpecialToken sosToken st))
  refine ⟨tw₁ ++ (tw₂ ++ tw₃), tc₁ ++ (tc₂ ++ tc₃), tk₁ ++ (tk₂ ++ tk₃), ?_, ?_, ?_⟩
  · rw [sentinelChain, k₁, g₁, h₁]; simp [List.append_assoc]
  · rw [sentinelChain, k₂, g₂, h₂]; simp [List.append_assoc]
  · rw [sentinelChain, k₃, g₃, h₃]; simp [List.append_assoc]

/-- The out-of-shortlist append only extends the word list. -/
theorem appendOos_ext (idw : List String) (oos : Option (List String)) :
    ∃ tw, appendOos idw oos = idw ++ tw := by
  cases oos with
  | none => exact ⟨[], by simp [appendOos]⟩
  | some ws =>
    suffices h : ∀ (ws : List String) (acc : List String),
        ∃ tw, ws.foldl (fun acc w => if w ∈ acc then acc else acc ++ [w]) acc = acc ++ tw by
      exact h ws idw
    intro ws
    induction ws with
    | nil => intro acc; exact ⟨[], by simp⟩
    | cons w ws ih =>
      intro acc
      by_cases hmem : w ∈ acc
      · obtain ⟨tw, htw⟩ := ih acc
        exact ⟨tw, by simpa [hmem] using htw⟩
      · obtain ⟨tw, htw⟩ := ih (acc ++ [w])
        exact ⟨[w] ++ tw, by simp [hmem, htw, List.append_assoc]⟩

/-- The token handled by `addSpecialToken` is present afterwards. -/
theorem addSpecialToken_mem (tok : String) (st : BuildState) :
    tok ∈ (addSpecialToken tok st).idw := by
  unfold addSpecialToken
  by_cases hmem : tok ∈ st.idw
  · simp [hmem]
  · simp [hmem]

/-- Membership in the word list survives `addSpecialToken`. -/
theorem addSpecialToken_mem_mono {w : String} (tok : String) (st : BuildState)
    (h : w ∈ st.idw) : w ∈ (addSpecialToken tok st).idw := by
  obtain ⟨tw, _, _, h₁, _, _⟩ := addSpecialToken_ext tok st
  rw [h₁]
  exact List.mem_append_left _ h

/-- After a successful construction all three sentinel tokens are in the
vocabulary. -/
theorem sentinels_mem_make {i2w : List String} {w2c : List Nat} {wcs : List WordClass}
    {oos : Option (List String)} {v : Vocabulary}
    (h : Vocabulary.make i2w w2c wcs oos = .ok v) :
    sosToken ∈ v.id_to_word ∧ eosToken ∈ v.id_to_word ∧ unkToken ∈ v.id_to_word := by
  obtain ⟨-, hv⟩ := make_eq_ok h
  obtain ⟨tw, htw⟩ := appendOos_ext (sentinelChain ⟨i2w, w2c, wcs⟩).idw oos
  have hsub : ∀ w, w ∈ (sentinelChain ⟨i2w, w2c, wcs⟩).idw → w ∈ v.id_to_word := by
    intro w hw
    rw [hv]
    simpa [htw] using List.mem_append_left tw hw
  refine ⟨hsub _ ?_, hsub _ ?_, hsub _ ?_⟩
  · exact addSpecialToken_mem_mono _ _ (addSpecialToken_mem_mono _ _
      (addSpecialToken_mem sosToken _))
  · exact addSpecialToken_mem_mono _ _ (addSpecialToken_mem eosToken _)
  · exact addSpecialToken_mem unkToken _

/-! ### C1: persistence round trip with out-of-shortlist words -/

/-- A well-formed vocabulary with one out-of-shortlist word `z`: shortlist
`a`, `<s>`, `</s>`, `<unk>` in four singleton classes. -/
def c1Vocab : Vocabulary :=
  ⟨["a", "<s>", "</s>", "<unk>", "z"], [0, 1, 2, 3],
    [⟨0, [(0, 1)]⟩, ⟨1, [(1, 1)]⟩, ⟨2, [(2, 1)]⟩, ⟨3, [(3, 1)]⟩], 1, none⟩

/-- The state `get_state` writes for `c1Vocab`: all five words, but classes
and probabilities only for the four shortlist words. -/
def c1State : H5State :=
  ⟨some ["a", "<s>", "</s>", "<unk>", "z"], some [0, 1, 2, 3], some [1, 1, 1, 1], none⟩

/-- C1: the round-trip claim fails on vocabularies with out-of-shortlist
words. Constructing a vocabulary with the out-of-shortlist word `z`,
persisting it with `get_state`, and reloading the resulting state with
`from_state` raises the constructor's ValueError, because `from_state`
passes the full word list (5 words) together with the shortlist-length
class list (4 entries) to the equal-length constructor. No reloaded
vocabulary exists, against the claimed identity of the round trip. -/
theorem c1_roundtrip_oos_value_error :
    Vocabulary.make ["a"] [0] [⟨0, [(0, 1)]⟩] (some ["z"]) = .ok c1Vocab ∧
    c1Vocab.num_shortlist_words < c1Vocab.num_words ∧
    c1Vocab.get_state = .ok c1State ∧
    Vocabulary.from_state c1State = .error .valueError := by
  refine ⟨?_, by decide, ?_, ?_⟩
  · rw [Vocabulary.make.eq_def]
    simp [sentinelChain, addSpecialToken, appendOos, numNormalFrom, isSentinelSingleton,
      sentinelMarked, WordClass.init, WordClass.normalize_probs, sosToken, eosToken,
      unkToken, c1Vocab]
    decide
  · rw [Vocabulary.get_state.eq_def]
    simp [shortlistProbs, collectProbs, c1Vocab, c1State, WordClass.get_prob, List.lookup]
  · rw [Vocabulary.from_state.eq_def]
    simp [c1State, maxClassId, buildSlots, slotInsert, allSome, WordClass.init, WordClass.add,
      Vocabulary.make, List.replicate]

/-! ### C7: error handling of the vocabulary-file parser -/

/-- The field count each file format declares: 1 for `words`, 2 for
`classes`, 3 for `srilm-classes`. -/
def expectedFields : VocabFormat → Nat
  | .words => 1
  | .classes => 2
  | .srilmClasses => 3

/-- The word carried by a well-formed line of each format: field 0 for
`words` and `classes`, field 2 for `srilm-classes`. -/
def lineWord : VocabFormat → List String → String
  | .words, fs => fs.getD 0 ""
  | .classes, fs => fs.getD 0 ""
  | .srilmClasses, fs => fs.getD 2 ""

/-- C7: error handling of `from_file`. A non-blank line whose field count
differs from the declared format's is rejected with the input-format error
carrying that field count and the line; a blank line is skipped; a
well-formed line whose word was already seen is rejected with the
duplicate-word error; and an error of the reading loop propagates, so
`from_file` returns no vocabulary. -/
theorem c7_from_file_errors (pi : String → Int) (pf : String → ℚ) (fmt : VocabFormat) :
    (∀ st fields, fields ≠ [] → fields.length ≠ expectedFields fmt →
      processLine pi pf fmt st fields = .error (.inputFieldCount fields.length fields)) ∧
    (∀ st, processLine pi pf fmt st [] = .ok st) ∧
    (∀ st fields, fields.length = expectedFields fmt → lineWord fmt fields ∈ st.seen →
      processLine pi pf fmt st fields = .error (.inputDuplicate (lineWord fmt fields))) ∧
    (∀ lines oos e, lines.foldlM (processLine pi pf fmt) initFileState = .error e →
      Vocabulary.from_file pi pf fmt lines oos = .error e) := by
  refine ⟨?_, ?_, ?_, ?_⟩
  · intro st fields hne hcount
    unfold processLine
    rw [if_neg hne]
    cases fmt <;>
      rcases fields with _ | ⟨a, _ | ⟨b, _ | ⟨c, _ | ⟨d, rest⟩⟩⟩⟩ <;>
      simp_all [parseFields, expectedFields]
  · intro st
    simp [processLine]
  · intro st fields hcount hmem
    cases fmt <;>
      rcases fields with _ | ⟨a, _ | ⟨b, _ | ⟨c, _ | ⟨d, rest⟩⟩⟩⟩ <;>
      simp_all [processLine, parseFields, expectedFields, lineWord]
  · intro lines oos e h
    unfold Vocabulary.from_file
    rw [h]

/-- Witness for C7: the `words` format rejects a two-field line with the
field-count error carrying the count 2 and the line. -/
theorem c7_from_file_errors_witness :
    processLine (fun _ => 0) (fun _ => 1) VocabFormat.words initFileState ["a", "b"] =
      .error (.inputFieldCount 2 ["a", "b"]) :=
  (c7_from_file_errors (fun _ => 0) (fun _ => 1) VocabFormat.words).1
    initFileState ["a", "b"] (by simp) (by simp [expectedFields])

/-! ### C3: sentinel tokens and their singleton classes -/

/-- `addSpecialToken` preserves the equal length of the word and class-ID
lists. -/
theorem addSpecialToken_len_eq (tok : String) (st : BuildState)
    (h : st.idw.length = st.w2c.length) :
    (addSpecialToken tok st).idw.length = (addSpecialToken tok st).w2c.length := by
  unfold addSpecialToken
  by_cases hmem : tok ∈ st.idw
  · simpa [hmem] using h
  · simp [hmem, h]

/-- Membership of a word other than the handled token is unchanged by
`addSpecialToken`. -/
theorem addSpecialToken_mem_ne {w : String} (tok : String) (st : BuildState)
    (hne : w ≠ tok) : w ∈ (addSpecialToken tok st).idw ↔ w ∈ st.idw := by
  unfold addSpecialToken
  by_cases hmem : tok ∈ st.idw
  · simp [hmem]
  · simp [hmem, hne]

/-- Normalizing a fresh singleton class of probability one is the
identity. -/
theorem normalize_init_one (cid wid : Nat) :
    (WordClass.init cid wid 1).normalize_probs = ⟨cid, [(wid, 1)]⟩ := by
  simp [WordClass.init, WordClass.normalize_probs]

/-- If a sentinel token was appended by its `addSpecialToken` block and the
final vocabulary only extends that intermediate state, the token sits at a
definite word ID whose class is the appended singleton of probability
one. -/
theorem sentinel_singleton_general (st : BuildState) (tw : List String) (tc : List Nat)
    (tk : List WordClass) (v : Vocabulary) (tok : String)
    (hidw : v.id_to_word = (addSpecialToken tok st).idw ++ tw)
    (hw2c : v.word_id_to_class_id = (addSpecialToken tok st).w2c ++ tc)
    (hwcs : v.word_classes = ((addSpecialToken tok st).wcs ++ tk).map WordClass.normalize_probs)
    (hmem : tok ∉ st.idw) (hlen : st.idw.length = st.w2c.length) :
    ∃ wid cid, v.id_to_word.get? wid = some tok ∧
      v.word_id_to_class_id.get? wid = some cid ∧
      v.word_classes.get? cid = some ⟨cid, [(wid, 1)]⟩ := by
  refine ⟨st.idw.length, st.wcs.length, ?_, ?_, ?_⟩
  · rw [hidw]
    unfold addSpecialToken
    rw [if_neg hmem]
    rw [List.append_assoc]
    rw [List.get?_append_right (by omega)]
    simp
  · rw [hw2c]
    unfold addSpecialToken
    rw [if_neg hmem]
    rw [List.append_assoc]
    rw [List.get?_append_right (by omega)]
    simp [hlen]
  · rw [hwcs]
    unfold addSpecialToken
    rw [if_neg hmem]
    rw [List.append_assoc, List.get?_map]
    rw [List.get?_append_right (by omega)]
    simp [normalize_init_one]

/-- A vocabulary built by the raw-list constructor from inputs that place
`<s>` in a shared two-word class. -/
def c3Vocab : Vocabulary :=
  ⟨["<s>", "a", "</s>", "<unk>"], [0, 0, 1, 2],
    [⟨0, [(0, 1/2), (1, 1/2)]⟩, ⟨1, [(2, 1)]⟩, ⟨2, [(3, 1)]⟩], 1, none⟩

/-- C3 counterexample: the raw-list constructor accepts `<s>` as a member
of a shared class. After construction `<s>`'s class has two members and
`<s>`'s membership probability is 1/2, not 1, so a sentinel present in the
construction inputs need not end up as the sole member of a singleton class
of probability one. -/
theorem c3_sentinel_shared_class_counterexample :
    Vocabulary.make ["<s>", "a"] [0, 0] [⟨0, [(0, 1), (1, 1)]⟩] none = .ok c3Vocab ∧
    c3Vocab.id_to_word.get? 0 = some sosToken ∧
    c3Vocab.word_id_to_class_id.get? 0 = some 0 ∧
    (c3Vocab.word_classes.getD 0 default).members.length = 2 ∧
    c3Vocab.get_word_prob 0 = some (1/2) ∧ ¬((1 : ℚ)/2 = 1) := by
  refine ⟨?_, by decide, by decide, by decide, ?_, by norm_num⟩
  · rw [Vocabulary.make.eq_def]
    simp [sentinelChain, addSpecialToken, appendOos, numNormalFrom, isSentinelSingleton,
      sentinelMarked, WordClass.init, WordClass.normalize_probs, sosToken, eosToken,
      unkToken, c3Vocab]
    norm_num
  · rw [Vocabulary.get_word_prob.eq_def]
    simp [c3Vocab, WordClass.get_prob, List.lookup]

/-- C3 amended: after any successful run of the canonical constructor (the
strategy all four construction paths end in), the three sentinel tokens are
present in the vocabulary, and each sentinel that was absent from the input
word list is the sole member of its own appended singleton class with
membership probability one. -/
theorem c3_sentinels_amended {i2w : List String} {w2c : List Nat} {wcs : List WordClass}
    {oos : Option (List String)} {v : Vocabulary}
    (h : Vocabulary.make i2w w2c wcs oos = .ok v) :
    (sosToken ∈ v.id_to_word ∧ eosToken ∈ v.id_to_word ∧ unkToken ∈ v.id_to_word) ∧
    (sosToken ∉ i2w → ∃ wid cid, v.id_to_word.get? wid = some sosToken ∧
      v.word_id_to_class_id.get? wid = some cid ∧
      v.word_classes.get? cid = some ⟨cid, [(wid, 1)]⟩) ∧
    (eosToken ∉ i2w → ∃ wid cid, v.id_to_word.get? wid = some eosToken ∧
      v.word_id_to_class_id.get? wid = some cid ∧
      v.word_classes.get? cid = some ⟨cid, [(wid, 1)]⟩) ∧
    (unkToken ∉ i2w → ∃ wid cid, v.id_to_word.get? wid = some unkToken ∧
      v.word_id_to_class_id.get? wid = some cid ∧
      v.word_classes.get? cid = some ⟨cid, [(wid, 1)]⟩) := by
  obtain ⟨hlen, hv⟩ := make_eq_ok h
  refine ⟨sentinels_mem_make h, ?_, ?_, ?_⟩
  all_goals intro hmem
  · -- `<s>`: handled by the first block; the later blocks and the
    -- out-of-shortlist append only extend the lists.
    obtain ⟨tw₂, tc₂, tk₂, g₁, g₂, g₃⟩ :=
      addSpecialToken_ext eosToken (addSpecialToken sosToken ⟨i2w, w2c, wcs⟩)
    obtain ⟨tw₃, tc₃, tk₃, k₁, k₂, k₃⟩ :=
      addSpecialToken_ext unkToken (addSpecialToken eosToken (addSpecialToken sosToken ⟨i2w, w2c, wcs⟩))
    obtain ⟨two, ho⟩ := appendOos_ext (sentinelChain ⟨i2w, w2c, wcs⟩).idw oos
    refine sentinel_singleton_general ⟨i2w, w2c, wcs⟩ (tw₂ ++ tw₃ ++ two) (tc₂ ++ tc₃)
      (tk₂ ++ tk₃) v sosToken ?_ ?_ ?_ hmem hlen
    · rw [hv]
      show appendOos (sentinelChain ⟨i2w, w2c, wcs⟩).idw oos = _
      rw [ho, sentinelChain, k₁, g₁]
      simp [List.append_assoc]
    · rw [hv]
      show (sentinelChain ⟨i2w, w2c, wcs⟩).w2c = _
      rw [sentinelChain, k₂, g₂]
      simp [List.append_assoc]
    · rw [hv]
      show (sentinelChain ⟨i2w, w2c, wcs⟩).wcs.map WordClass.normalize_probs = _
      rw [sentinelChain, k₃, g₃]
      simp [List.append_assoc]
  · -- `</s>`: absent from the state reaching its block because it differs
    -- from `<s>` and was absent from the input.
    have hmem₁ : eosToken ∉ (addSpecialToken sosToken ⟨i2w, w2c, wcs⟩).idw := by
      rw [addSpecialToken_mem_ne sosToken ⟨i2w, w2c, wcs⟩ (by decide)]
      exact hmem
    have hlen₁ := addSpecialToken_len_eq sosToken ⟨i2w, w2c, wcs⟩ hlen
    obtain ⟨tw₃, tc₃, tk₃, k₁, k₂, k₃⟩ :=
      addSpecialToken_ext unkToken (addSpecialToken eosToken (addSpecialToken sosToken ⟨i2w, w2c, wcs⟩))
    obtain ⟨two, ho⟩ := appendOos_ext (sentinelChain ⟨i2w, w2c, wcs⟩).idw oos
    refine sentinel_singleton_general (addSpecialToken sosToken ⟨i2w, w2c, wcs⟩)
      (tw₃ ++ two) tc₃ tk₃ v eosToken ?_ ?_ ?_ hmem₁ hlen₁
    · rw [hv]
      show appendOos (sentinelChain ⟨i2w, w2c, wcs⟩).idw oos = _
      rw [ho, sentinelChain, k₁]
      simp [List.append_assoc]
    · rw [hv]
      show (sentinelChain ⟨i2w, w2c, wcs⟩).w2c = _
      rw [sentinelChain, k₂]
    · rw [hv]
      show (sentinelChain ⟨i2w, w2c, wcs⟩).wcs.map WordClass.normalize_probs = _
      rw [sentinelChain, k₃]
  · -- `<unk>`: absent from the state reaching its block.
    have hmem₂ : unkToken ∉ (addSpecialToken eosToken (addSpecialToken sosToken ⟨i2w, w2c, wcs⟩)).idw := by
      rw [addSpecialToken_mem_ne eosToken _ (by decide),
        addSpecialToken_mem_ne sosToken _ (by decide)]
      exact hmem
    have hlen₂ := addSpecialToken_len_eq eosToken _ (addSpecialToken_len_eq sosToken ⟨i2w, w2c, wcs⟩ hlen)
    obtain ⟨two, ho⟩ := appendOos_ext (sentinelChain ⟨i2w, w2c, wcs⟩).idw oos
    refine sentinel_singleton_general (addSpecialToken eosToken (addSpecialToken sosToken ⟨i2w, w2c, wcs⟩))
      two [] [] v unkToken ?_ ?_ ?_ hmem₂ hlen₂
    · rw [hv]
      show appendOos (sentinelChain ⟨i2w, w2c, wcs⟩).idw oos = _
      rw [ho, sentinelChain]
    · rw [hv]
      show (sentinelChain ⟨i2w, w2c, wcs⟩).w2c = _
      rw [sentinelChain]
      simp
    · rw [hv]
      show (sentinelChain ⟨i2w, w2c, wcs⟩).wcs.map WordClass.normalize_probs = _
      rw [sentinelChain]
      simp

/-- Witness for C3 amended: building from the bare word list `["a"]` (no
sentinels in the input), `</s>` lands at word ID 2 in singleton class 2
with probability one. -/
theorem c3_sentinels_amended_witness :
    ∃ wid cid,
      (⟨["a", "<s>", "</s>", "<unk>"], [0, 1, 2, 3],
        [⟨0, [(0, 1)]⟩, ⟨1, [(1, 1)]⟩, ⟨2, [(2, 1)]⟩, ⟨3, [(3, 1)]⟩], 1, none⟩ :
          Vocabulary).id_to_word.get? wid = some eosToken ∧
      (⟨["a", "<s>", "</s>", "<unk>"], [0, 1, 2, 3],
        [⟨0, [(0, 1)]⟩, ⟨1, [(1, 1)]⟩, ⟨2, [(2, 1)]⟩, ⟨3, [(3, 1)]⟩], 1, none⟩ :
          Vocabulary).word_id_to_class_id.get? wid = some cid ∧
      (⟨["a", "<s>", "</s>", "<unk>"], [0, 1, 2, 3],
        [⟨0, [(0, 1)]⟩, ⟨1, [(1, 1)]⟩, ⟨2, [(2, 1)]⟩, ⟨3, [(3, 1)]⟩], 1, none⟩ :
          Vocabulary).word_classes.get? cid = some ⟨cid, [(wid, 1)]⟩ := by
  have hmk : Vocabulary.make ["a"] [0] [⟨0, [(0, 1)]⟩] none =
      .ok ⟨["a", "<s>", "</s>", "<unk>"], [0, 1, 2, 3],
        [⟨0, [(0, 1)]⟩, ⟨1, [(1, 1)]⟩, ⟨2, [(2, 1)]⟩, ⟨3, [(3, 1)]⟩], 1, none⟩ := by
    rw [Vocabulary.make.eq_def]
    simp [sentinelChain, addSpecialToken, appendOos, numNormalFrom, isSentinelSingleton,
      sentinelMarked, WordClass.init, WordClass.normalize_probs, sosToken, eosToken, unkToken]
    decide
  exact (c3_sentinels_amended hmk).2.2.1 (by decide)

/-! ### C5: characterization of the num_normal_classes scan -/

/-- The scan result never exceeds its starting bound. -/
theorem numNormalFrom_le (idw : List String) (wcs : List WordClass) :
    ∀ n, numNormalFrom idw wcs n ≤ n := by
  intro n
  induction n with
  | zero => simp [numNormalFrom]
  | succ n ih =>
    rw [numNormalFrom]
    cases h : wcs.get? n with
    | some wc =>
      by_cases hs : isSentinelSingleton idw wc
      · simp only [hs, if_true]
        omega
      · simp [hs]
    | none => simp

/-- Characterization of the backward scan: every class at or beyond the
result (within the scanned range) is a sentinel singleton, and the class
right below the result is not. -/
theorem numNormalFrom_spec (idw : List String) (wcs : List WordClass) :
    ∀ n, n ≤ wcs.length →
      (∀ j, numNormalFrom idw wcs n ≤ j → j < n →
        isSentinelSingleton idw (wcs.getD j default) = true) ∧
      (0 < numNormalFrom idw wcs n →
        isSentinelSingleton idw (wcs.getD (numNormalFrom idw wcs n - 1) default) = false) := by
  intro n
  induction n with
  | zero =>
    intro _
    constructor
    · intro j _ hj
      exact absurd hj (Nat.not_lt_zero j)
    · intro h
      rw [numNormalFrom] at h
      exact absurd h (lt_irrefl 0)
  | succ n ih =>
    intro hn
    have hlt : n < wcs.length := by omega
    have hwc : wcs.get? n = some (wcs.getD n default) := by
      rw [List.get?_eq_getElem?, List.getD_eq_getElem?_getD,
        List.getElem?_eq_getElem hlt]
      rfl
    rw [numNormalFrom, hwc]
    by_cases hs : isSentinelSingleton idw (wcs.getD n default) = true
    · simp only [hs, if_true]
      obtain ⟨ih₁, ih₂⟩ := ih (by omega)
      refine ⟨?_, ih₂⟩
      intro j hj hjn
      by_cases hjn' : j < n
      · exact ih₁ j hj hjn'
      · have hje : j = n := by omega
        rw [hje]
        exact hs
    · have hs' : isSentinelSingleton idw (wcs.getD n default) = false := by
        simpa using hs
      simp only [hs', Bool.false_eq_true, if_false]
      constructor
      · intro j hj hjn
        exact absurd hjn (by omega)
      · intro _
        simp only [Nat.add_sub_cancel]
        exact hs'

/-- Normalization does not change a class's membership count or word IDs,
so the sentinel-singleton shape is invariant under it. -/
theorem isSentinelSingleton_normalize (idw : List String) (wc : WordClass) :
    isSentinelSingleton idw wc.normalize_probs = isSentinelSingleton idw wc := by
  rcases wc with ⟨cid, members⟩
  rw [WordClass.normalize_probs]
  by_cases htot : ((members.map Prod.snd).sum : ℚ) = 0 <;>
    [rw [if_pos htot]; rw [if_neg htot]] <;>
    rcases members with _ | ⟨m, _ | ⟨m', rest⟩⟩ <;>
    simp [isSentinelSingleton]

/-- Mapping a default-fixing function commutes with `getD`. -/
theorem getD_map_fix {α : Type} (f : α → α) (l : List α) (j : Nat) (d : α)
    (hd : f d = d) : (l.map f).getD j d = f (l.getD j d) := by
  induction l generalizing j with
  | nil => simp [hd]
  | cons x xs ih =>
    cases j with
    | zero => simp
    | succ j => simpa using ih j

/-- Normalizing the default (empty) class is the identity on it. -/
theorem normalize_default : WordClass.normalize_probs default = default := by
  rw [WordClass.normalize_probs]
  simp [default]

/-- C5: after a successful run of the raw-list constructor,
`num_normal_classes` is the stopping point of the backward scan: every
class from `num_normal_classes` up is a singleton whose sole member's word
starts with `<`, and (unless the scan ran past index -1, i.e. the result is
zero) the class at `num_normal_classes - 1` is not of that shape. -/
theorem c5_num_normal_classes {i2w : List String} {w2c : List Nat} {wcs : List WordClass}
    {oos : Option (List String)} {v : Vocabulary}
    (h : Vocabulary.make i2w w2c wcs oos = .ok v) :
    (∀ j, v.num_normal_classes ≤ j → j < v.word_classes.length →
      isSentinelSingleton v.id_to_word (v.word_classes.getD j default) = true) ∧
    (0 < v.num_normal_classes →
      isSentinelSingleton v.id_to_word
        (v.word_classes.getD (v.num_normal_classes - 1) default) = false) := by
  obtain ⟨hlen, hv⟩ := make_eq_ok h
  subst hv
  simp only [List.length_map]
  obtain ⟨h₁, h₂⟩ := numNormalFrom_spec
    (appendOos (sentinelChain ⟨i2w, w2c, wcs⟩).idw oos)
    (sentinelChain ⟨i2w, w2c, wcs⟩).wcs
    (sentinelChain ⟨i2w, w2c, wcs⟩).wcs.length (le_refl _)
  constructor
  · intro j hj hjlen
    rw [getD_map_fix _ _ _ _ normalize_default, isSentinelSingleton_normalize]
    exact h₁ j hj hjlen
  · intro hpos
    rw [getD_map_fix _ _ _ _ normalize_default, isSentinelSingleton_normalize]
    exact h₂ hpos

/-- The vocabulary the constructor builds from the bare word list `["a"]`
in its own singleton class. -/
def smallVocab : Vocabulary :=
  ⟨["a", "<s>", "</s>", "<unk>"], [0, 1, 2, 3],
    [⟨0, [(0, 1)]⟩, ⟨1, [(1, 1)]⟩, ⟨2, [(2, 1)]⟩, ⟨3, [(3, 1)]⟩], 1, none⟩

/-- The constructor on the bare word list `["a"]` yields `smallVocab`. -/
theorem smallVocab_make :
    Vocabulary.make ["a"] [0] [⟨0, [(0, 1)]⟩] none = .ok smallVocab := by
  rw [Vocabulary.make.eq_def]
  simp [sentinelChain, addSpecialToken, appendOos, numNormalFrom, isSentinelSingleton,
    sentinelMarked, WordClass.init, WordClass.normalize_probs, sosToken, eosToken,
    unkToken, smallVocab]
  decide

/-- Witness for C5: in the concrete vocabulary built from `["a"]`,
`num_normal_classes = 1` and the class below it (class 0, holding `a`) is
not a sentinel singleton. -/
theorem c5_num_normal_classes_witness :
    isSentinelSingleton smallVocab.id_to_word
      (smallVocab.word_classes.getD (smallVocab.num_normal_classes - 1) default) = false :=
  (c5_num_normal_classes smallVocab_make).2 (by decide)

/-! ### C6: totality of words_to_ids -/

/-- C6: `words_to_ids` is total on a constructed vocabulary. `<unk>` always
has an ID after construction; the call returns one ID per input word
(never failing); a word of the vocabulary maps to an index holding that
word; and every other string maps exactly to `<unk>`'s ID. -/
theorem c6_words_to_ids_total {i2w : List String} {w2c : List Nat} {wcs : List WordClass}
    {oos : Option (List String)} {v : Vocabulary}
    (h : Vocabulary.make i2w w2c wcs oos = .ok v) (ws : List String) :
    ∃ unkId r, word_to_id v.id_to_word unkToken = some unkId ∧
      v.words_to_ids ws = some r ∧
      r.length = ws.length ∧
      r = ws.map (fun w => (word_to_id v.id_to_word w).getD unkId) ∧
      (∀ w, w ∈ v.id_to_word → ∃ j, word_to_id v.id_to_word w = some j ∧
        v.id_to_word.get? j = some w) ∧
      (∀ w, w ∉ v.id_to_word → (word_to_id v.id_to_word w).getD unkId = unkId) := by
  have hunk : unkToken ∈ v.id_to_word := (sentinels_mem_make h).2.2
  obtain ⟨unkId, hunkId⟩ := Option.isSome_iff_exists.mp (word_to_id_isSome_iff.mpr hunk)
  refine ⟨unkId, ws.map (fun w => (word_to_id v.id_to_word w).getD unkId),
    hunkId, ?_, by simp, rfl, ?_, ?_⟩
  · rw [Vocabulary.words_to_ids, hunkId]
  · intro w hw
    obtain ⟨j, hj⟩ := Option.isSome_iff_exists.mp (word_to_id_isSome_iff.mpr hw)
    exact ⟨j, hj, word_to_id_get hj⟩
  · intro w hw
    rw [word_to_id_eq_none_iff.mpr hw]
    rfl

/-- Witness for C6: on the concrete vocabulary built from `["a"]`, the
word list `["a", "oov"]` translates to `[0, 3]` — the in-vocabulary word to
its own ID and the unknown word to `<unk>`'s ID 3. -/
theorem c6_words_to_ids_total_witness :
    ∃ unkId r, word_to_id smallVocab.id_to_word unkToken = some unkId ∧
      smallVocab.words_to_ids ["a", "oov"] = some r ∧
      r.length = (["a", "oov"] : List String).length ∧
      r = (["a", "oov"] : List String).map
        (fun w => (word_to_id smallVocab.id_to_word w).getD unkId) ∧
      (∀ w, w ∈ smallVocab.id_to_word → ∃ j, word_to_id smallVocab.id_to_word w = some j ∧
        smallVocab.id_to_word.get? j = some w) ∧
      (∀ w, w ∉ smallVocab.id_to_word → (word_to_id smallVocab.id_to_word w).getD unkId = unkId) :=
  c6_words_to_ids_total smallVocab_make ["a", "oov"]

/-! ### C4: from_word_counts round-robin assignment -/

/-- The assignment loop appends exactly the sorted words, in order, to the
word list. -/
theorem assign_idw (N : Nat) :
    ∀ (l : List (String × Nat)) (c : Nat) (st : BuildState),
      (assignCountedWords N l c st).idw = st.idw ++ l.map Prod.fst := by
  intro l
  induction l with
  | nil => intro c st; simp [assignCountedWords]
  | cons e rest ih =>
    intro c st
    rw [assignCountedWords, ih]
    simp

/-- The assignment loop appends the class IDs `(c + i) % N` for the i-th
word it processes: round-robin assignment. -/
theorem assign_w2c {N : Nat} (hN : 0 < N) :
    ∀ (l : List (String × Nat)) (c : Nat) (st : BuildState), c < N →
      (assignCountedWords N l c st).w2c =
        st.w2c ++ (List.range l.length).map (fun i => (c + i) % N) := by
  intro l
  induction l with
  | nil => intro c st _; simp [assignCountedWords]
  | cons e rest ih =>
    intro c st hc
    rw [assignCountedWords, ih _ _ (Nat.mod_lt _ hN)]
    simp only [List.length_cons, List.range_succ_eq_map, List.map_cons, List.map_map,
      Nat.add_zero, Nat.mod_eq_of_lt hc, List.append_assoc, List.singleton_append]
    congr 1
    congr 1
    apply List.map_congr_left
    intro i _
    simp only [Function.comp_apply, Nat.succ_eq_add_one]
    rw [Nat.mod_add_mod]
    congr 1
    omega

/-- Every member probability the assignment loop stores is one. -/
theorem assign_probs_one (N : Nat) :
    ∀ (l : List (String × Nat)) (c : Nat) (st : BuildState),
      (∀ wc ∈ st.wcs, ∀ m ∈ wc.members, m.2 = 1) →
      ∀ wc ∈ (assignCountedWords N l c st).wcs, ∀ m ∈ wc.members, m.2 = 1 := by
  intro l
  induction l with
  | nil => intro c st h; simpa [assignCountedWords] using h
  | cons e rest ih =>
    intro c st h
    rw [assignCountedWords]
    apply ih
    by_cases hc : c < st.wcs.length
    · simp only [hc, if_true]
      intro wc hwc m hm
      rcases List.mem_or_eq_of_mem_set hwc with hmem | heq
      · exact h wc hmem m hm
      · subst heq
        have hgd : st.wcs.getD c default ∈ st.wcs := by
          rw [List.getD_eq_getElem?_getD, List.getElem?_eq_getElem hc]
          exact List.getElem_mem hc
        rcases (by simpa [WordClass.add] using hm :
            m ∈ (st.wcs.getD c default).members ∨ m = (st.idw.length, 1)) with hold | hnew
        · exact h _ hgd m hold
        · rw [hnew]
    · simp only [hc, if_false]
      intro wc hwc m hm
      rcases List.mem_append.mp hwc with hmem | hnew
      · exact h wc hmem m hm
      · rw [List.mem_singleton] at hnew
        subst hnew
        have hme : m = (st.idw.length, 1) := by simpa [WordClass.init] using hm
        rw [hme]

/-- The vocabulary `from_word_counts` builds from
`{cat: 5, dog: 1, bird: 3}` with two classes. -/
def c4Vocab : Vocabulary :=
  ⟨["dog", "bird", "cat", "<s>", "</s>", "<unk>"], [0, 1, 0, 2, 3, 4],
    [⟨0, [(0, 1/2), (2, 1/2)]⟩, ⟨1, [(1, 1)]⟩, ⟨2, [(3, 1)]⟩, ⟨3, [(4, 1)]⟩, ⟨4, [(5, 1)]⟩],
    2, none⟩

/-- C4: `from_word_counts` strips the three sentinel tokens from the count
map, sorts the remaining words by ascending count (a stable sort of the
map's entries), assigns the word at position k of that order to class
k mod N (N defaulting to the number of remaining words), and enters every
word with probability 1.0 before normalization; in particular, for counts
{cat: 5, dog: 1, bird: 3} and N = 2, the order is dog, bird, cat, putting
dog and cat in class 0 and bird in class 1. -/
theorem c4_from_word_counts (wcl : List (String × Nat)) (N : Nat) (hN : 0 < N) :
    Vocabulary.from_word_counts wcl (some N) =
      Vocabulary.make
        (assignCountedWords N (List.insertionSort countLe (removeSpecialCounts wcl)) 0
          ⟨[], [], []⟩).idw
        (assignCountedWords N (List.insertionSort countLe (removeSpecialCounts wcl)) 0
          ⟨[], [], []⟩).w2c
        (assignCountedWords N (List.insertionSort countLe (removeSpecialCounts wcl)) 0
          ⟨[], [], []⟩).wcs none ∧
    Vocabulary.from_word_counts wcl none =
      Vocabulary.from_word_counts wcl (some (removeSpecialCounts wcl).length) ∧
    removeSpecialCounts wcl =
      wcl.filter (fun e => e.1 ≠ sosToken ∧ e.1 ≠ eosToken ∧ e.1 ≠ unkToken) ∧
    List.Sorted countLe (List.insertionSort countLe (removeSpecialCounts wcl)) ∧
    List.Perm (List.insertionSort countLe (removeSpecialCounts wcl)) (removeSpecialCounts wcl) ∧
    (assignCountedWords N (List.insertionSort countLe (removeSpecialCounts wcl)) 0
        ⟨[], [], []⟩).idw =
      (List.insertionSort countLe (removeSpecialCounts wcl)).map Prod.fst ∧
    (assignCountedWords N (List.insertionSort countLe (removeSpecialCounts wcl)) 0
        ⟨[], [], []⟩).w2c =
      (List.range (List.insertionSort countLe (removeSpecialCounts wcl)).length).map
        (fun k => k % N) ∧
    (∀ wc ∈ (assignCountedWords N (List.insertionSort countLe (removeSpecialCounts wcl)) 0
        ⟨[], [], []⟩).wcs, ∀ m ∈ wc.members, m.2 = 1) ∧
    Vocabulary.from_word_counts [("cat", 5), ("dog", 1), ("bird", 3)] (some 2) =
      .ok c4Vocab := by
  refine ⟨rfl, rfl, rfl, List.sorted_insertionSort countLe _,
    List.perm_insertionSort countLe _, ?_, ?_, ?_, ?_⟩
  · rw [assign_idw]
    simp
  · rw [assign_w2c hN _ 0 _ hN]
    simp
  · intro wc hwc m hm
    exact assign_probs_one N _ 0 ⟨[], [], []⟩ (by intro wc h; cases h) wc hwc m hm
  · rw [Vocabulary.from_word_counts.eq_def]
    simp only [removeSpecialCounts, sosToken, eosToken, unkToken]
    norm_num [List.filter, countLe, List.insertionSort, List.orderedInsert, assignCountedWords,
      WordClass.init, WordClass.add]
    rw [Vocabulary.make.eq_def]
    simp [sentinelChain, addSpecialToken, appendOos, numNormalFrom, isSentinelSingleton,
      sentinelMarked, WordClass.init, WordClass.normalize_probs, sosToken, eosToken,
      unkToken, c4Vocab]
    norm_num
    decide

/-- Witness for C4: the full statement instantiated at the scenario input
{cat: 5, dog: 1, bird: 3} with N = 2. -/
theorem c4_from_word_counts_witness :
    Vocabulary.from_word_counts [("cat", 5), ("dog", 1), ("bird", 3)] (some 2) =
      Vocabulary.make
        (assignCountedWords 2 (List.insertionSort countLe
          (removeSpecialCounts [("cat", 5), ("dog", 1), ("bird", 3)])) 0 ⟨[], [], []⟩).idw
        (assignCountedWords 2 (List.insertionSort countLe
          (removeSpecialCounts [("cat", 5), ("dog", 1), ("bird", 3)])) 0 ⟨[], [], []⟩).w2c
        (assignCountedWords 2 (List.insertionSort countLe
          (removeSpecialCounts [("cat", 5), ("dog", 1), ("bird", 3)])) 0 ⟨[], [], []⟩).wcs
        none ∧
    Vocabulary.from_word_counts [("cat", 5), ("dog", 1), ("bird", 3)] none =
      Vocabulary.from_word_counts [("cat", 5), ("dog", 1), ("bird", 3)]
        (some (removeSpecialCounts [("cat", 5), ("dog", 1), ("bird", 3)]).length) ∧
    removeSpecialCounts [("cat", 5), ("dog", 1), ("bird", 3)] =
      List.filter (fun e => e.1 ≠ sosToken ∧ e.1 ≠ eosToken ∧ e.1 ≠ unkToken)
        [("cat", 5), ("dog", 1), ("bird", 3)] ∧
    List.Sorted countLe (List.insertionSort countLe
      (removeSpecialCounts [("cat", 5), ("dog", 1), ("bird", 3)])) ∧
    List.Perm (List.insertionSort countLe
        (removeSpecialCounts [("cat", 5), ("dog", 1), ("bird", 3)]))
      (removeSpecialCounts [("cat", 5), ("dog", 1), ("bird", 3)]) ∧
    (assignCountedWords 2 (List.insertionSort countLe
        (removeSpecialCounts [("cat", 5), ("dog", 1), ("bird", 3)])) 0 ⟨[], [], []⟩).idw =
      (List.insertionSort countLe
        (removeSpecialCounts [("cat", 5), ("dog", 1), ("bird", 3)])).map Prod.fst ∧
    (assignCountedWords 2 (List.insertionSort countLe
        (removeSpecialCounts [("cat", 5), ("dog", 1), ("bird", 3)])) 0 ⟨[], [], []⟩).w2c =
      (List.range (List.insertionSort countLe
        (removeSpecialCounts [("cat", 5), ("dog", 1), ("bird", 3)])).length).map
        (fun k => k % 2) ∧
    (∀ wc ∈ (assignCountedWords 2 (List.insertionSort countLe
        (removeSpecialCounts [("cat", 5), ("dog", 1), ("bird", 3)])) 0 ⟨[], [], []⟩).wcs,
      ∀ m ∈ wc.members, m.2 = 1) ∧
    Vocabulary.from_word_counts [("cat", 5), ("dog", 1), ("bird", 3)] (some 2) =
      .ok c4Vocab :=
  c4_from_word_counts [("cat", 5), ("dog", 1), ("bird", 3)] 2 (by norm_num)

/-! ### C8 and C10: compute_probs -/

/-- Reading back the index just written by `set`. -/
theorem getD_set_self {α : Type} :
    ∀ (l : List α) (i : Nat) (a d : α), i < l.length → (l.set i a).getD i d = a := by
  intro l
  induction l with
  | nil => intro i a d h; simp at h
  | cons x xs ih =>
    intro i a d h
    cases i with
    | zero => simp
    | succ i => simpa using ih i a d (by simpa using h)

/-- Reading an index other than the one written by `set`. -/
theorem getD_set_ne {α : Type} :
    ∀ (l : List α) (i j : Nat) (a d : α), i ≠ j → (l.set i a).getD j d = l.getD j d := by
  intro l
  induction l with
  | nil => intro i j a d _; simp
  | cons x xs ih =>
    intro i j a d hne
    cases i with
    | zero =>
      cases j with
      | zero => exact absurd rfl hne
      | succ j => simp
    | succ i =>
      cases j with
      | zero => simp
      | succ j => simpa using ih i j a d (by omega)

/-- Writing a value over a zero entry adds it to the sum. -/
theorem sum_set_zero :
    ∀ (l : List Nat) (i x : Nat), i < l.length → l.getD i 0 = 0 →
      (l.set i x).sum = l.sum + x := by
  intro l
  induction l with
  | nil => intro i x h; simp at h
  | cons y ys ih =>
    intro i x h hz
    cases i with
    | zero =>
      simp only [List.getD_cons_zero] at hz
      subst hz
      simp [Nat.add_comm]
    | succ i =>
      simp only [List.getD_cons_succ] at hz
      have := ih i x (by simpa using h) hz
      simp [List.sum_cons, this]
      omega

/-- Every entry of a zero-filled array reads zero. -/
theorem getD_replicate_zero : ∀ (n i : Nat), (List.replicate n (0 : Nat)).getD i 0 = 0 := by
  intro n
  induction n with
  | zero => intro i; simp
  | succ n ih =>
    intro i
    cases i with
    | zero => simp [List.replicate]
    | succ i =>
      rw [List.replicate, List.getD_cons_succ]
      exact ih i

/-- The counting fold keeps the array length. -/
theorem rawCounts_length (v : Vocabulary) (wcl : List (String × Nat)) :
    (rawCounts v wcl).length = v.num_words := by
  rw [rawCounts]
  suffices h : ∀ (l : List (String × Nat)) (acc : List Nat),
      (l.foldl (fun acc e =>
        match word_to_id v.id_to_word e.1 with
        | some i => if i < acc.length then acc.set i e.2 else acc
        | none => acc) acc).length = acc.length by
    rw [h]
    exact List.length_replicate _ _
  intro l
  induction l with
  | nil => intro acc; rfl
  | cons e rest ih =>
    intro acc
    rw [List.foldl_cons, ih]
    cases hw : word_to_id v.id_to_word e.1 with
    | none => rfl
    | some i =>
      by_cases hi : i < acc.length
      · simp [hi]
      · simp [hi]

/-- The counting fold with fresh targets: provided every word of the count
list that is in the vocabulary points at a still-zero entry of the
accumulator, the fold adds exactly the counts of the in-vocabulary words
to the accumulator's sum. -/
theorem foldl_counts_sum (idw : List String) :
    ∀ (l : List (String × Nat)) (acc : List Nat),
      (∀ e ∈ l, ∀ i, word_to_id idw e.1 = some i → i < acc.length ∧ acc.getD i 0 = 0) →
      (l.map Prod.fst).Nodup →
      (l.foldl (fun acc e =>
        match word_to_id idw e.1 with
        | some i => if i < acc.length then acc.set i e.2 else acc
        | none => acc) acc).sum =
        acc.sum + ((l.filter (fun e => (word_to_id idw e.1).isSome)).map Prod.snd).sum := by
  intro l
  induction l with
  | nil => intro acc _ _; simp
  | cons e rest ih =>
    intro acc hfresh hnodup
    rw [List.foldl_cons]
    cases hw : word_to_id idw e.1 with
    | none =>
      rw [ih acc (fun e' he' => hfresh e' (List.mem_cons_of_mem e he'))
        (by simpa using hnodup.of_cons)]
      simp [List.filter_cons, hw]
    | some i =>
      obtain ⟨hilt, hiz⟩ := hfresh e (List.mem_cons_self e rest) i hw
      simp only [hilt, if_true]
      have hfresh' : ∀ e' ∈ rest, ∀ i', word_to_id idw e'.1 = some i' →
          i' < (acc.set i e.2).length ∧ (acc.set i e.2).getD i' 0 = 0 := by
        intro e' he' i' hw'
        have hne : e'.1 ≠ e.1 := by
          intro hcontra
          have : e.1 ∈ rest.map Prod.fst := by
            rw [← hcontra]
            exact List.mem_map_of_mem Prod.fst he'
          exact (List.nodup_cons.mp hnodup).1 this
        have hii : i ≠ i' := by
          intro hcontra
          subst hcontra
          exact hne (word_to_id_inj hw' hw)
        obtain ⟨h₁, h₂⟩ := hfresh e' (List.mem_cons_of_mem e he') i' hw'
        rw [List.length_set, getD_set_ne acc i i' e.2 0 hii]
        exact ⟨h₁, h₂⟩
      rw [ih (acc.set i e.2) hfresh' (by simpa using hnodup.of_cons)]
      rw [sum_set_zero acc i e.2 hilt hiz]
      simp only [List.filter_cons, hw, Option.isSome_some]
      simp [Nat.add_assoc]

/-- The sum of the dense count array equals the summed counts of the
in-vocabulary words of a duplicate-free count map. -/
theorem rawCounts_sum (v : Vocabulary) (wcl : List (String × Nat))
    (hnodup : (wcl.map Prod.fst).Nodup) :
    (rawCounts v wcl).sum =
      ((wcl.filter (fun e => (word_to_id v.id_to_word e.1).isSome)).map Prod.snd).sum := by
  rw [rawCounts]
  rw [foldl_counts_sum v.id_to_word wcl (List.replicate v.num_words 0) ?_ hnodup]
  · simp [List.sum_replicate]
  · intro e _ i hw
    refine ⟨?_, getD_replicate_zero _ _⟩
    rw [List.length_replicate]
    exact word_to_id_lt hw

/-- Summing a list divided elementwise by a constant. -/
theorem sum_map_cast_div (S : ℚ) :
    ∀ (l : List Nat), (l.map (fun c : Nat => (c : ℚ) / S)).sum = ((l.sum : Nat) : ℚ) / S := by
  intro l
  induction l with
  | nil => simp
  | cons x xs ih =>
    rw [List.map_cons, List.sum_cons, ih, List.sum_cons]
    push_cast
    rw [add_div]

/-- C10: `compute_probs` divides the dense count array by its total with no
zero guard. The divisor is nonzero exactly when some word of the count map
is in the vocabulary with a positive count, and under that precondition the
resulting `unigram_probs` sum to one. -/
theorem c10_unigram_divisor (v : Vocabulary) (wcl : List (String × Nat)) (b : Bool)
    (hnodup : (wcl.map Prod.fst).Nodup) :
    ((rawCounts v wcl).sum ≠ 0 ↔
      ∃ e ∈ wcl, (word_to_id v.id_to_word e.1).isSome ∧ 0 < e.2) ∧
    ((rawCounts v wcl).sum ≠ 0 →
      ∃ u, (v.compute_probs wcl b).unigram_probs = some u ∧ u.sum = 1) := by
  constructor
  · rw [rawCounts_sum v wcl hnodup]
    rw [ne_eq, List.sum_eq_zero_iff]
    push_neg
    constructor
    · rintro ⟨x, hx, hxne⟩
      obtain ⟨e, he, hee⟩ := List.mem_map.mp hx
      obtain ⟨hew, hep⟩ := List.mem_filter.mp he
      exact ⟨e, hew, by simpa using hep, by omega⟩
    · rintro ⟨e, he, hsome, hpos⟩
      refine ⟨e.2, List.mem_map_of_mem Prod.snd (List.mem_filter.mpr ⟨he, by simpa using hsome⟩),
        by omega⟩
  · intro hne
    refine ⟨(rawCounts v wcl).map (fun c : Nat => (c : ℚ) / (((rawCounts v wcl).sum : Nat) : ℚ)), ?_, ?_⟩
    · rw [Vocabulary.compute_probs]
      cases b <;> simp
    · rw [sum_map_cast_div]
      rw [div_self (by exact_mod_cast hne)]

/-- Looking a key up after mapping a key-determined value over an
association list. -/
theorem lookup_map_keyfn {β γ : Type} (k : Nat) (g : Nat → γ) :
    ∀ (l : List (Nat × β)),
      List.lookup k (l.map (fun m => (m.1, g m.1))) = (List.lookup k l).map (fun _ => g k) := by
  intro l
  induction l with
  | nil => rfl
  | cons m rest ih =>
    rw [List.map_cons, List.lookup_cons, List.lookup_cons]
    by_cases hk : k = m.1
    · subst hk
      simp
    · have hbeq : (k == m.1) = false := by simpa using hk
      rw [hbeq]
      exact ih

/-- A key of a list member is found by `lookup`. -/
theorem lookup_isSome_of_mem {β : Type} :
    ∀ (l : List (Nat × β)) (m : Nat × β), m ∈ l → (List.lookup m.1 l).isSome := by
  intro l
  induction l with
  | nil => intro m hm; cases hm
  | cons x rest ih =>
    intro m hm
    rw [List.lookup_cons]
    by_cases hk : m.1 = x.1
    · simp [hk]
    · have hbeq : (m.1 == x.1) = false := by simpa using hk
      rw [hbeq]
      rcases List.mem_cons.mp hm with rfl | hmem
      · exact absurd rfl hk
      · exact ih m hmem

/-- Updating the probabilities of the default (empty) class is the
identity on it. -/
theorem updateClassProbs_default (counts : List Nat) :
    updateClassProbs counts default = default := by
  rw [updateClassProbs]
  simp [default]

/-- The per-class update gives each member its count over the class's
total count, or the uniform `1/len` when the total is zero. -/
theorem get_prob_updateClass (counts : List Nat) (wc : WordClass) (m : Nat × ℚ)
    (hm : m ∈ wc.members) :
    (updateClassProbs counts wc).get_prob m.1 =
      some (if 0 < (wc.members.map (fun m' => counts.getD m'.1 0)).sum
        then (counts.getD m.1 0 : ℚ) /
          ((wc.members.map (fun m' => counts.getD m'.1 0)).sum : ℚ)
        else 1 / (wc.members.length : ℚ)) := by
  obtain ⟨p, hp⟩ := Option.isSome_iff_exists.mp (lookup_isSome_of_mem wc.members m hm)
  rw [updateClassProbs]
  by_cases htot : 0 < (wc.members.map (fun m' => counts.getD m'.1 0)).sum
  · rw [if_pos htot, if_pos htot, WordClass.get_prob]
    have hl := lookup_map_keyfn m.1
      (fun k => (counts.getD k 0 : ℚ) /
        ((wc.members.map (fun m' => counts.getD m'.1 0)).sum : ℚ)) wc.members
    simp only at hl ⊢
    rw [hl, hp]
    rfl
  · rw [if_neg htot, if_neg htot, WordClass.get_prob]
    have hl := lookup_map_keyfn m.1
      (fun _ => (1 : ℚ) / (wc.members.length : ℚ)) wc.members
    simp only at hl ⊢
    rw [hl, hp]
    rfl

/-- C8: `compute_probs` with class updating first raises the counts of the
three sentinel tokens to at least one (leaving every other entry equal to
the dense count array), and then gives each member of every class the
probability of its adjusted count over the class's total adjusted count,
falling back to the uniform `1/len` when that total is zero. -/
theorem c8_compute_probs (v : Vocabulary) (wcl : List (String × Nat)) (s e u : Nat)
    (hs : word_to_id v.id_to_word sosToken = some s)
    (he : word_to_id v.id_to_word eosToken = some e)
    (hu : word_to_id v.id_to_word unkToken = some u) :
    (1 ≤ (adjustCounts v (rawCounts v wcl)).getD s 0 ∧
     1 ≤ (adjustCounts v (rawCounts v wcl)).getD e 0 ∧
     1 ≤ (adjustCounts v (rawCounts v wcl)).getD u 0) ∧
    (∀ i, i ≠ s → i ≠ e → i ≠ u →
      (adjustCounts v (rawCounts v wcl)).getD i 0 = (rawCounts v wcl).getD i 0) ∧
    (∀ cid, cid < v.word_classes.length →
      ∀ m ∈ (v.word_classes.getD cid default).members,
        WordClass.get_prob ((v.compute_probs wcl true).word_classes.getD cid default) m.1 =
          some (if 0 < ((v.word_classes.getD cid default).members.map
                (fun m' => (adjustCounts v (rawCounts v wcl)).getD m'.1 0)).sum
            then ((adjustCounts v (rawCounts v wcl)).getD m.1 0 : ℚ) /
              (((v.word_classes.getD cid default).members.map
                (fun m' => (adjustCounts v (rawCounts v wcl)).getD m'.1 0)).sum : ℚ)
            else 1 / ((v.word_classes.getD cid default).members.length : ℚ))) := by
  have hlen : (rawCounts v wcl).length = v.id_to_word.length := rawCounts_length v wcl
  have hslt : s < (rawCounts v wcl).length := by rw [hlen]; exact word_to_id_lt hs
  have helt : e < (rawCounts v wcl).length := by rw [hlen]; exact word_to_id_lt he
  have hult : u < (rawCounts v wcl).length := by rw [hlen]; exact word_to_id_lt hu
  have hse : s ≠ e := by
    intro hc
    subst hc
    exact absurd (word_to_id_inj hs he) (by decide)
  have hsu : s ≠ u := by
    intro hc
    subst hc
    exact absurd (word_to_id_inj hs hu) (by decide)
  have heu : e ≠ u := by
    intro hc
    subst hc
    exact absurd (word_to_id_inj he hu) (by decide)
  have hadj : adjustCounts v (rawCounts v wcl) =
      (((rawCounts v wcl).set s (max ((rawCounts v wcl).getD s 0) 1)).set e
        (max (((rawCounts v wcl).set s (max ((rawCounts v wcl).getD s 0) 1)).getD e 0) 1)).set u
        (max ((((rawCounts v wcl).set s (max ((rawCounts v wcl).getD s 0) 1)).set e
          (max (((rawCounts v wcl).set s
            (max ((rawCounts v wcl).getD s 0) 1)).getD e 0) 1)).getD u 0) 1) := by
    rw [adjustCounts, hs, he, hu]
  refine ⟨⟨?_, ?_, ?_⟩, ?_, ?_⟩
  · rw [hadj, getD_set_ne _ u s _ _ (Ne.symm hsu), getD_set_ne _ e s _ _ (Ne.symm hse),
      getD_set_self _ s _ _ hslt]
    exact Nat.le_max_right _ 1
  · rw [hadj, getD_set_ne _ u e _ _ (Ne.symm heu),
      getD_set_self _ e _ _ (by simpa using helt)]
    exact Nat.le_max_right _ 1
  · rw [hadj, getD_set_self _ u _ _ (by simpa using hult)]
    exact Nat.le_max_right _ 1
  · intro i his hie hiu
    rw [hadj, getD_set_ne _ u i _ _ (Ne.symm hiu), getD_set_ne _ e i _ _ (Ne.symm hie),
      getD_set_ne _ s i _ _ (Ne.symm his)]
  · intro cid hcid m hm
    have hmap : (v.compute_probs wcl true).word_classes =
        v.word_classes.map (updateClassProbs (adjustCounts v (rawCounts v wcl))) := by
      simp [Vocabulary.compute_probs]
    rw [hmap, getD_map_fix _ _ _ _ (updateClassProbs_default _)]
    exact get_prob_updateClass _ _ m hm

/-- Witness for C8: in the vocabulary built from `["a"]` with corpus count
{a: 2}, the adjusted counts of the three sentinels (word IDs 1, 2, 3) are
all at least one. -/
theorem c8_compute_probs_witness :
    1 ≤ (adjustCounts smallVocab (rawCounts smallVocab [("a", 2)])).getD 1 0 ∧
    1 ≤ (adjustCounts smallVocab (rawCounts smallVocab [("a", 2)])).getD 2 0 ∧
    1 ≤ (adjustCounts smallVocab (rawCounts smallVocab [("a", 2)])).getD 3 0 :=
  (c8_compute_probs smallVocab [("a", 2)] 1 2 3 (by decide) (by decide) (by decide)).1

/-- Witness for C10: the statement instantiated on the vocabulary built
from `["a"]` with the count map {a: 2}. -/
theorem c10_unigram_divisor_witness :
    ((rawCounts smallVocab [("a", 2)]).sum ≠ 0 ↔
      ∃ e ∈ [("a", 2)], (word_to_id smallVocab.id_to_word e.1).isSome ∧ 0 < e.2) ∧
    ((rawCounts smallVocab [("a", 2)]).sum ≠ 0 →
      ∃ u, (smallVocab.compute_probs [("a", 2)] true).unigram_probs = some u ∧ u.sum = 1) :=
  c10_unigram_divisor smallVocab [("a", 2)] true (by decide)

/-! ### C9: out-of-shortlist probability renormalization -/

/-- The scaling pass keeps the array length. -/
theorem oosScale_length (s : Nat) (t : ℚ) :
    ∀ (u : List ℚ) (i : Nat), (oosScale s t i u).length = u.length := by
  intro u
  induction u with
  | nil => intro i; rfl
  | cons q qs ih =>
    intro i
    rw [oosScale]
    simpa using ih (i + 1)

/-- From the shortlist boundary on, the scaling pass divides every entry by
the total. -/
theorem oosScale_ge (s : Nat) (t : ℚ) :
    ∀ (u : List ℚ) (i : Nat), s ≤ i → oosScale s t i u = u.map (fun q => q / t) := by
  intro u
  induction u with
  | nil => intro i _; rfl
  | cons q qs ih =>
    intro i hi
    rw [oosScale, if_neg (by omega), List.map_cons, ih (i + 1) (by omega)]

/-- Dropping the shortlist prefix of the scaled array leaves the divided
tail. -/
theorem oosScale_drop (s : Nat) (t : ℚ) :
    ∀ (u : List ℚ) (i : Nat),
      (oosScale s t i u).drop (s - i) = (u.drop (s - i)).map (fun q => q / t) := by
  intro u
  induction u with
  | nil => intro i; simp [oosScale]
  | cons q qs ih =>
    intro i
    by_cases hi : s ≤ i
    · rw [Nat.sub_eq_zero_of_le hi, List.drop_zero, List.drop_zero]
      exact oosScale_ge s t (q :: qs) i hi
    · have hpos : 0 < s - i := by omega
      rw [oosScale]
      obtain ⟨d, hd⟩ : ∃ d, s - i = d + 1 := ⟨s - i - 1, by omega⟩
      rw [hd, List.drop_succ_cons, List.drop_succ_cons]
      have : d = s - (i + 1) := by omega
      rw [this]
      exact ih (i + 1)

/-- Every entry below the shortlist boundary is set to one. -/
theorem oosScale_getD_lt (s : Nat) (t : ℚ) :
    ∀ (u : List ℚ) (i j : Nat), i + j < s → j < u.length →
      (oosScale s t i u).getD j 0 = 1 := by
  intro u
  induction u with
  | nil => intro i j _ h; simp at h
  | cons q qs ih =>
    intro i j hij hj
    rw [oosScale, if_pos (by omega)]
    cases j with
    | zero => rfl
    | succ j =>
      rw [List.getD_cons_succ]
      exact ih (i + 1) j (by omega) (by simpa using hj)

/-- Summing a rational list divided elementwise by a constant. -/
theorem sum_map_div (t : ℚ) :
    ∀ (l : List ℚ), (l.map (fun q => q / t)).sum = l.sum / t := by
  intro l
  induction l with
  | nil => simp
  | cons x xs ih =>
    rw [List.map_cons, List.sum_cons, ih, List.sum_cons, add_div]

/-- C9 amended: when the unigram probabilities are present and the total
unigram mass of the out-of-shortlist words is nonzero, the array whose
elementwise logarithm `get_oos_logprobs` returns has the entry 1 (log 0.0)
at every index below `num_shortlist_words`, and its out-of-shortlist
entries (each that word's unigram probability divided by the total
out-of-shortlist unigram mass — the exponentials of the returned
log-probabilities) sum to one. -/
theorem c9_oos_logprobs_amended (v : Vocabulary) (u : List ℚ)
    (hu : v.unigram_probs = some u)
    (htot : (u.drop v.word_id_to_class_id.length).sum ≠ 0) :
    ∃ arr, oosProbsArr v = some arr ∧
      (∀ j, j < v.word_id_to_class_id.length → j < arr.length → arr.getD j 0 = 1) ∧
      (arr.drop v.word_id_to_class_id.length).sum = 1 := by
  refine ⟨oosScale v.word_id_to_class_id.length
    ((u.drop v.word_id_to_class_id.length).sum) 0 u, ?_, ?_, ?_⟩
  · rw [oosProbsArr, hu]
  · intro j hj hjl
    exact oosScale_getD_lt _ _ u 0 j (by omega) (by rwa [oosScale_length] at hjl)
  · have hdrop := oosScale_drop v.word_id_to_class_id.length
      ((u.drop v.word_id_to_class_id.length).sum) u 0
    rw [Nat.sub_zero] at hdrop
    rw [hdrop, sum_map_div, div_self htot]

/-- A vocabulary with one out-of-shortlist word `z` whose unigram
probabilities assign all mass to the shortlist: the out-of-shortlist
unigram mass is zero. It is the result of `compute_probs` with corpus
counts {a: 1} on the vocabulary constructed with `oos_words=["z"]`. -/
def c9Vocab : Vocabulary :=
  Vocabulary.compute_probs
    ⟨["a", "<s>", "</s>", "<unk>", "z"], [0, 1, 2, 3],
      [⟨0, [(0, 1)]⟩, ⟨1, [(1, 1)]⟩, ⟨2, [(2, 1)]⟩, ⟨3, [(3, 1)]⟩], 1, none⟩
    [("a", 1)] false

/-- C9 counterexample: `c9Vocab` has unigram probabilities and at least one
out-of-shortlist word, yet the out-of-shortlist values whose logarithms
`get_oos_logprobs` returns sum to 0, not 1: the total out-of-shortlist
unigram mass is zero, so the renormalization divides by zero (in the
floating-point source, producing NaNs). Having an out-of-shortlist word is
not sufficient for the claimed normalization. -/
theorem c9_zero_oos_mass_counterexample :
    c9Vocab.has_unigram_probs = true ∧
    c9Vocab.num_shortlist_words < c9Vocab.num_words ∧
    (oosProbsArr c9Vocab).map
      (fun arr => (arr.drop c9Vocab.num_shortlist_words).sum) = some 0 ∧
    (0 : ℚ) ≠ 1 := by
  have hv : c9Vocab = ⟨["a", "<s>", "</s>", "<unk>", "z"], [0, 1, 2, 3],
      [⟨0, [(0, 1)]⟩, ⟨1, [(1, 1)]⟩, ⟨2, [(2, 1)]⟩, ⟨3, [(3, 1)]⟩], 1,
      some [1, 0, 0, 0, 0]⟩ := by
    rw [c9Vocab, Vocabulary.compute_probs]
    simp [rawCounts, word_to_id, wordToIdAux, Vocabulary.num_words, List.replicate]
  refine ⟨?_, ?_, ?_, by norm_num⟩
  · rw [hv]; rfl
  · rw [hv]; decide
  · rw [hv]
    norm_num [oosProbsArr, oosScale, Vocabulary.num_shortlist_words]

/-- A vocabulary with one out-of-shortlist word `z` carrying half the
unigram mass. -/
def c9GoodVocab : Vocabulary :=
  ⟨["a", "<s>", "</s>", "<unk>", "z"], [0, 1, 2, 3],
    [⟨0, [(0, 1)]⟩, ⟨1, [(1, 1)]⟩, ⟨2, [(2, 1)]⟩, ⟨3, [(3, 1)]⟩], 1,
    some [1/2, 0, 0, 0, 1/2]⟩

/-- Witness for C9 amended: on `c9GoodVocab` (out-of-shortlist mass 1/2)
the scaled array exists, is 1 below the shortlist boundary, and its
out-of-shortlist entries sum to one. -/
theorem c9_oos_logprobs_amended_witness :
    ∃ arr, oosProbsArr c9GoodVocab = some arr ∧
      (∀ j, j < c9GoodVocab.word_id_to_class_id.length → j < arr.length →
        arr.getD j 0 = 1) ∧
      (arr.drop c9GoodVocab.word_id_to_class_id.length).sum = 1 :=
  c9_oos_logprobs_amended c9GoodVocab [1/2, 0, 0, 0, 1/2] rfl
    (by simp [c9GoodVocab])

/-! ### C2: what from_state loads -/

/-- The (word ID, stored probability) pairs of the words whose stored class
ID is `c`, in word-ID order, starting at word ID `lo`: the membership list
the grouping loop of `from_state` accumulates for class `c`. -/
def classEntries (cs : List Nat) (c : Nat) : List ℚ → Nat → List (Nat × ℚ)
  | [], _ => []
  | p :: ps, lo => (if cs.getD lo 0 = c then [(lo, p)] else []) ++ classEntries cs c ps (lo + 1)

/-- The total stored probability of class `c` in a persisted state. -/
def classStoredTotal (cs : List Nat) (ps : List ℚ) (c : Nat) : ℚ :=
  ((classEntries cs c ps 0).map Prod.snd).sum

/-- The number of words a persisted state puts in class `c`. -/
def classStoredSize (cs : List Nat) (ps : List ℚ) (c : Nat) : Nat :=
  (classEntries cs c ps 0).length

/-- How one class slot evolves over a run of the grouping loop: untouched
when no entry hits it, seeded by the first entry, extended by the rest. -/
def slotExtend (c : Nat) : Option WordClass → List (Nat × ℚ) → Option WordClass
  | none, [] => none
  | none, e :: rest => some ⟨c, e :: rest⟩
  | some wc, es => some ⟨wc.classId, wc.members ++ es⟩

/-- The grouping loop keeps the number of slots. -/
theorem buildSlots_length (cs : List Nat) :
    ∀ (ps : List ℚ) (lo : Nat) (slots : List (Option WordClass)),
      (buildSlots cs ps lo slots).length = slots.length := by
  intro ps
  induction ps with
  | nil => intro lo slots; rfl
  | cons p ps ih =>
    intro lo slots
    rw [buildSlots, ih, slotInsert]
    cases slots.getD (cs.getD lo 0) none <;> simp

/-- Characterization of the grouping loop of `from_state`: after the run,
slot `c` holds exactly the entries whose stored class ID is `c`, appended
in word-ID order to whatever the slot held before. -/
theorem buildSlots_getD (cs : List Nat) :
    ∀ (ps : List ℚ) (lo : Nat) (slots : List (Option WordClass)) (c : Nat),
      c < slots.length →
      (∀ k, lo ≤ k → k < lo + ps.length → cs.getD k 0 < slots.length) →
      (buildSlots cs ps lo slots).getD c none =
        slotExtend c (slots.getD c none) (classEntries cs c ps lo) := by
  intro ps
  induction ps with
  | nil =>
    intro lo slots c _ _
    rw [buildSlots, classEntries]
    cases h : slots.getD c none with
    | none => rfl
    | some wc => simp [slotExtend]
  | cons p ps ih =>
    intro lo slots c hc hbound
    have hcid : cs.getD lo 0 < slots.length :=
      hbound lo (le_refl lo) (by simp)
    have hlen : (slotInsert slots (cs.getD lo 0) lo p).length = slots.length := by
      rw [slotInsert]
      cases slots.getD (cs.getD lo 0) none <;> simp
    have hbound' : ∀ k, lo + 1 ≤ k → k < (lo + 1) + ps.length →
        cs.getD k 0 < (slotInsert slots (cs.getD lo 0) lo p).length := by
      intro k hk₁ hk₂
      rw [hlen]
      exact hbound k (by omega) (by simp; omega)
    rw [buildSlots, classEntries, ih (lo + 1) _ c (by omega) hbound']
    by_cases hceq : cs.getD lo 0 = c
    · rw [if_pos hceq, List.singleton_append]
      cases hslot : slots.getD c none with
      | none =>
        have hins : slotInsert slots (cs.getD lo 0) lo p =
            slots.set c (some (WordClass.init c lo p)) := by
          rw [slotInsert, hceq, hslot]
        rw [hins, getD_set_self _ _ _ _ hc]
        rw [slotExtend, slotExtend]
        cases classEntries cs c ps (lo + 1) <;> rfl
      | some wc =>
        have hins : slotInsert slots (cs.getD lo 0) lo p =
            slots.set c (some (wc.add lo p)) := by
          rw [slotInsert, hceq, hslot]
        rw [hins, getD_set_self _ _ _ _ hc]
        rw [slotExtend, slotExtend, WordClass.add]
        simp
    · rw [if_neg hceq, List.nil_append]
      have hins : (slotInsert slots (cs.getD lo 0) lo p).getD c none = slots.getD c none := by
        rw [slotInsert]
        cases slots.getD (cs.getD lo 0) none <;>
          exact getD_set_ne _ _ _ _ _ hceq
      rw [hins]

/-- Looking a word up in its class's entry list finds its stored
probability. -/
theorem lookup_classEntries (cs : List Nat) (c : Nat) :
    ∀ (ps : List ℚ) (lo w : Nat), lo ≤ w → w < lo + ps.length → cs.getD w 0 = c →
      List.lookup w (classEntries cs c ps lo) = some (ps.getD (w - lo) 0) := by
  intro ps
  induction ps with
  | nil =>
    intro lo w h₁ h₂ _
    rw [List.length_nil] at h₂
    exact absurd h₂ (by omega)
  | cons p ps ih =>
    intro lo w h₁ h₂ hcw
    rw [classEntries]
    by_cases hw : w = lo
    · subst hw
      rw [if_pos hcw, List.singleton_append, List.lookup_cons]
      simp
    · have hlookup : List.lookup w (classEntries cs c ps (lo + 1)) =
          some (ps.getD (w - (lo + 1)) 0) :=
        ih (lo + 1) w (by omega) (by simp at h₂ ⊢; omega) hcw
      have hidx : (p :: ps).getD (w - lo) 0 = ps.getD (w - (lo + 1)) 0 := by
        obtain ⟨d, hd⟩ : ∃ d, w - lo = d + 1 := ⟨w - lo - 1, by omega⟩
        rw [hd, List.getD_cons_succ]
        congr 1
        omega
      rw [hidx]
      by_cases hcl : cs.getD lo 0 = c
      · rw [if_pos hcl, List.singleton_append, List.lookup_cons]
        have : (w == lo) = false := by simpa using hw
        rw [this]
        exact hlookup
      · rw [if_neg hcl, List.nil_append]
        exact hlookup

/-- Looking a key up after mapping a value transformation over an
association list. -/
theorem lookup_map_val {β γ : Type} (k : Nat) (f : β → γ) :
    ∀ (l : List (Nat × β)),
      List.lookup k (l.map (fun m => (m.1, f m.2))) = (List.lookup k l).map f := by
  intro l
  induction l with
  | nil => rfl
  | cons m rest ih =>
    rw [List.map_cons, List.lookup_cons, List.lookup_cons]
    by_cases hk : k = m.1
    · subst hk
      simp
    · have hbeq : (k == m.1) = false := by simpa using hk
      rw [hbeq]
      exact ih

/-- Collapsing a list of present slots. -/
theorem allSome_map_some : ∀ (l : List WordClass), allSome (l.map some) = some l := by
  intro l
  induction l with
  | nil => rfl
  | cons x rest ih =>
    rw [List.map_cons, allSome, ih]
    rfl

/-- Every element of a list of naturals is at most the running maximum the
fold computes. -/
theorem le_foldl_max :
    ∀ (l : List Nat) (a : Nat), a ≤ l.foldl max a ∧ ∀ x ∈ l, x ≤ l.foldl max a := by
  intro l
  induction l with
  | nil => intro a; exact ⟨le_refl a, fun x hx => absurd hx (List.not_mem_nil x)⟩
  | cons y ys ih =>
    intro a
    rw [List.foldl_cons]
    obtain ⟨h₁, h₂⟩ := ih (max a y)
    refine ⟨le_trans (Nat.le_max_left a y) h₁, ?_⟩
    intro x hx
    rcases List.mem_cons.mp hx with rfl | hmem
    · exact le_trans (Nat.le_max_right a x) h₁
    · exact h₂ x hmem

/-- A stored class ID never exceeds the loaded maximum. -/
theorem getD_le_maxClassId (cs : List Nat) (i : Nat) (hi : i < cs.length) :
    cs.getD i 0 ≤ maxClassId cs := by
  have hmem : cs.getD i 0 ∈ cs := by
    rw [List.getD_eq_getElem?_getD, List.getElem?_eq_getElem hi]
    exact List.getElem_mem hi
  exact (le_foldl_max cs 0).2 _ hmem

/-- Reading any index of a constant array gives the constant. -/
theorem getD_replicate_self {α : Type} (d : α) :
    ∀ (n i : Nat), (List.replicate n d).getD i d = d := by
  intro n
  induction n with
  | zero => intro i; simp
  | succ n ih =>
    intro i
    cases i with
    | zero => simp [List.replicate]
    | succ i =>
      rw [List.replicate, List.getD_cons_succ]
      exact ih i

/-- On a well-formed covered state, the grouping loop fills slot `c` with
exactly the class-`c` entries. -/
theorem buildSlots_filled (cs : List Nat) (ps : List ℚ) (hlen : ps.length = cs.length)
    (hcover : ∀ c, c ≤ maxClassId cs → ∃ i, i < ps.length ∧ cs.getD i 0 = c)
    (c : Nat) (hc : c < maxClassId cs + 1) :
    (buildSlots cs ps 0 (List.replicate (maxClassId cs + 1) none)).getD c none =
      some ⟨c, classEntries cs c ps 0⟩ := by
  have hchar := buildSlots_getD cs ps 0 (List.replicate (maxClassId cs + 1) none) c
    (by rw [List.length_replicate]; exact hc)
    (by
      intro k _ hk₂
      rw [List.length_replicate]
      have : k < cs.length := by rw [← hlen]; omega
      have := getD_le_maxClassId cs k this
      omega)
  rw [hchar, getD_replicate_self]
  obtain ⟨i, hi, hci⟩ := hcover c (by omega)
  have hlook := lookup_classEntries cs c ps 0 i (Nat.zero_le i) (by omega) hci
  cases hE : classEntries cs c ps 0 with
  | nil => rw [hE] at hlook; cases hlook
  | cons e rest => rw [slotExtend]

/-- On a well-formed covered state, the grouping loop produces the class
list `⟨c, entries of class c⟩` for `c = 0 .. max`. -/
theorem buildSlots_as_list (cs : List Nat) (ps : List ℚ) (hlen : ps.length = cs.length)
    (hcover : ∀ c, c ≤ maxClassId cs → ∃ i, i < ps.length ∧ cs.getD i 0 = c) :
    buildSlots cs ps 0 (List.replicate (maxClassId cs + 1) none) =
      (List.range (maxClassId cs + 1)).map (fun c => some ⟨c, classEntries cs c ps 0⟩) := by
  have hL : (buildSlots cs ps 0 (List.replicate (maxClassId cs + 1) none)).length =
      maxClassId cs + 1 := by
    rw [buildSlots_length, List.length_replicate]
  apply List.ext_getElem?
  intro i
  by_cases hi : i < maxClassId cs + 1
  · have hleft : (buildSlots cs ps 0 (List.replicate (maxClassId cs + 1) none))[i]? =
        some ((buildSlots cs ps 0 (List.replicate (maxClassId cs + 1) none)).getD i none) := by
      rw [List.getD_eq_getElem?_getD, List.getElem?_eq_getElem (by omega)]
      rfl
    rw [hleft, buildSlots_filled cs ps hlen hcover i hi]
    rw [List.getElem?_map, List.getElem?_range hi]
    rfl
  · rw [List.getElem?_eq_none (by omega), List.getElem?_eq_none (by simp; omega)]

/-- Running `from_state` on a well-formed covered state (all three keys
present, equal word/class/probability counts, no gap in the class IDs)
succeeds, and the result is the constructor's output on the grouped
classes. -/
theorem from_state_ok (ws : List String) (cs : List Nat) (ps : List ℚ)
    (hws : ws.length = cs.length) (hlen : ps.length = cs.length) (hne : cs ≠ [])
    (hcover : ∀ c, c ≤ maxClassId cs → ∃ i, i < ps.length ∧ cs.getD i 0 = c) :
    Vocabulary.from_state ⟨some ws, some cs, some ps, none⟩ =
      .ok ⟨appendOos (sentinelChain ⟨ws, cs, (List.range (maxClassId cs + 1)).map
            (fun c => (⟨c, classEntries cs c ps 0⟩ : WordClass))⟩).idw none,
          (sentinelChain ⟨ws, cs, (List.range (maxClassId cs + 1)).map
            (fun c => (⟨c, classEntries cs c ps 0⟩ : WordClass))⟩).w2c,
          (sentinelChain ⟨ws, cs, (List.range (maxClassId cs + 1)).map
            (fun c => (⟨c, classEntries cs c ps 0⟩ : WordClass))⟩).wcs.map
            WordClass.normalize_probs,
          numNormalFrom
            (appendOos (sentinelChain ⟨ws, cs, (List.range (maxClassId cs + 1)).map
              (fun c => (⟨c, classEntries cs c ps 0⟩ : WordClass))⟩).idw none)
            (sentinelChain ⟨ws, cs, (List.range (maxClassId cs + 1)).map
              (fun c => (⟨c, classEntries cs c ps 0⟩ : WordClass))⟩).wcs
            (sentinelChain ⟨ws, cs, (List.range (maxClassId cs + 1)).map
              (fun c => (⟨c, classEntries cs c ps 0⟩ : WordClass))⟩).wcs.length,
          none⟩ := by
  have hall : allSome (buildSlots cs ps 0 (List.replicate (maxClassId cs + 1) none)) =
      some ((List.range (maxClassId cs + 1)).map
        (fun c => (⟨c, classEntries cs c ps 0⟩ : WordClass))) := by
    rw [buildSlots_as_list cs ps hlen hcover]
    have hmm : (List.range (maxClassId cs + 1)).map
        (fun c => some (⟨c, classEntries cs c ps 0⟩ : WordClass)) =
        ((List.range (maxClassId cs + 1)).map
          (fun c => (⟨c, classEntries cs c ps 0⟩ : WordClass))).map some := by
      rw [List.map_map]
      rfl
    rw [hmm, allSome_map_some]
  have hmk : Vocabulary.make ws cs ((List.range (maxClassId cs + 1)).map
      (fun c => (⟨c, classEntries cs c ps 0⟩ : WordClass))) none =
      .ok ⟨appendOos (sentinelChain ⟨ws, cs, (List.range (maxClassId cs + 1)).map
            (fun c => (⟨c, classEntries cs c ps 0⟩ : WordClass))⟩).idw none,
          (sentinelChain ⟨ws, cs, (List.range (maxClassId cs + 1)).map
            (fun c => (⟨c, classEntries cs c ps 0⟩ : WordClass))⟩).w2c,
          (sentinelChain ⟨ws, cs, (List.range (maxClassId cs + 1)).map
            (fun c => (⟨c, classEntries cs c ps 0⟩ : WordClass))⟩).wcs.map
            WordClass.normalize_probs,
          numNormalFrom
            (appendOos (sentinelChain ⟨ws, cs, (List.range (maxClassId cs + 1)).map
              (fun c => (⟨c, classEntries cs c ps 0⟩ : WordClass))⟩).idw none)
            (sentinelChain ⟨ws, cs, (List.range (maxClassId cs + 1)).map
              (fun c => (⟨c, classEntries cs c ps 0⟩ : WordClass))⟩).wcs
            (sentinelChain ⟨ws, cs, (List.range (maxClassId cs + 1)).map
              (fun c => (⟨c, classEntries cs c ps 0⟩ : WordClass))⟩).wcs.length,
          none⟩ := by
    rw [Vocabulary.make, if_neg (by omega)]
    rfl
  simp only [Vocabulary.from_state]
  rw [if_neg hne]
  simp only [hall, hmk]

/-- C2 amended: `from_state` groups the stored probabilities into classes
and the constructor then renormalizes every class, so each shortlist word's
loaded probability is its stored probability divided by its class's stored
total (or the uniform `1/size` when that total is zero); the stored values
are returned unchanged only when each class's stored probabilities already
sum to one. -/
theorem c2_from_state_amended (ws : List String) (cs : List Nat) (ps : List ℚ)
    (hws : ws.length = cs.length) (hlen : ps.length = cs.length) (hne : cs ≠ [])
    (hcover : ∀ c, c ≤ maxClassId cs → ∃ i, i < ps.length ∧ cs.getD i 0 = c)
    (wid : Nat) (hwid : wid < ps.length) :
    ∃ v, Vocabulary.from_state ⟨some ws, some cs, some ps, none⟩ = .ok v ∧
      v.get_word_prob wid = some
        (if classStoredTotal cs ps (cs.getD wid 0) = 0
          then 1 / (classStoredSize cs ps (cs.getD wid 0) : ℚ)
          else ps.getD wid 0 / classStoredTotal cs ps (cs.getD wid 0)) := by
  refine ⟨_, from_state_ok ws cs ps hws hlen hne hcover, ?_⟩
  have hwid' : wid < cs.length := by omega
  obtain ⟨tw, tc, tk, hex₁, hex₂, hex₃⟩ := sentinelChain_ext
    ⟨ws, cs, (List.range (maxClassId cs + 1)).map
      (fun c => (⟨c, classEntries cs c ps 0⟩ : WordClass))⟩
  have hw2c : (sentinelChain ⟨ws, cs, (List.range (maxClassId cs + 1)).map
      (fun c => (⟨c, classEntries cs c ps 0⟩ : WordClass))⟩).w2c.get? wid =
      some (cs.getD wid 0) := by
    rw [hex₂, List.get?_eq_getElem?, List.getElem?_append_left hwid',
      List.getElem?_eq_getElem hwid', List.getD_eq_getElem?_getD,
      List.getElem?_eq_getElem hwid']
    rfl
  have hcidlt : cs.getD wid 0 < maxClassId cs + 1 := by
    have := getD_le_maxClassId cs wid hwid'
    omega
  have hWget : ((List.range (maxClassId cs + 1)).map
      (fun c => (⟨c, classEntries cs c ps 0⟩ : WordClass))).get? (cs.getD wid 0) =
      some ⟨cs.getD wid 0, classEntries cs (cs.getD wid 0) ps 0⟩ := by
    rw [List.get?_eq_getElem?, List.getElem?_map, List.getElem?_range hcidlt]
    rfl
  have hwcs : ((sentinelChain ⟨ws, cs, (List.range (maxClassId cs + 1)).map
      (fun c => (⟨c, classEntries cs c ps 0⟩ : WordClass))⟩).wcs.map
        WordClass.normalize_probs).get? (cs.getD wid 0) =
      some (WordClass.normalize_probs
        ⟨cs.getD wid 0, classEntries cs (cs.getD wid 0) ps 0⟩) := by
    rw [hex₃, List.get?_eq_getElem?, List.getElem?_map, List.getElem?_append_left
      (by rw [List.length_map, List.length_range]; exact hcidlt)]
    rw [← List.get?_eq_getElem?, hWget]
    rfl
  rw [Vocabulary.get_word_prob]
  simp only [hw2c, hwcs]
  rw [WordClass.normalize_probs]
  have hlook : List.lookup wid (classEntries cs (cs.getD wid 0) ps 0) =
      some (ps.getD wid 0) := by
    have := lookup_classEntries cs (cs.getD wid 0) ps 0 wid (Nat.zero_le wid)
      (by omega) rfl
    rwa [Nat.sub_zero] at this
  by_cases htot : classStoredTotal cs ps (cs.getD wid 0) = 0
  · rw [if_pos htot]
    rw [classStoredTotal] at htot
    rw [if_pos htot]
    rw [WordClass.get_prob]
    have hmap := lookup_map_keyfn wid
      (fun _ : Nat => (1 : ℚ) / ((classEntries cs (cs.getD wid 0) ps 0).length : ℚ))
      (classEntries cs (cs.getD wid 0) ps 0)
    simp only at hmap ⊢
    rw [hmap, hlook]
    rfl
  · rw [if_neg htot]
    rw [classStoredTotal] at htot
    rw [if_neg htot]
    rw [WordClass.get_prob]
    have hmap := lookup_map_val wid
      (fun q : ℚ => q / ((classEntries cs (cs.getD wid 0) ps 0).map Prod.snd).sum)
      (classEntries cs (cs.getD wid 0) ps 0)
    simp only at hmap ⊢
    rw [hmap, hlook]
    rfl

/-- A persisted state whose class-0 probabilities sum to 2/5, not 1. -/
def c2State : H5State :=
  ⟨some ["a", "b", "<s>", "</s>", "<unk>"], some [0, 0, 1, 2, 3],
    some [1/5, 1/5, 1, 1, 1], none⟩

/-- What `from_state` actually loads from `c2State`: class 0's stored
probabilities have been renormalized from 1/5 each to 1/2 each. -/
def c2Vocab : Vocabulary :=
  ⟨["a", "b", "<s>", "</s>", "<unk>"], [0, 0, 1, 2, 3],
    [⟨0, [(0, 1/2), (1, 1/2)]⟩, ⟨1, [(2, 1)]⟩, ⟨2, [(3, 1)]⟩, ⟨3, [(4, 1)]⟩], 1, none⟩

/-- C2 counterexample: loading `c2State`, whose class-0 stored
probabilities are 1/5 and 1/5 (summing to 2/5, not 1), yields
`get_word_prob 0 = 1/2`, not the stored 1/5: the load path renormalizes
through the constructor, against the claim that stored values are returned
unchanged. -/
theorem c2_from_state_renormalizes_counterexample :
    Vocabulary.from_state c2State = .ok c2Vocab ∧
    (c2State.probs.getD []).getD 0 0 = 1/5 ∧
    c2Vocab.get_word_prob 0 = some (1/2) ∧
    ¬((1 : ℚ)/2 = 1/5) ∧
    ¬(((1 : ℚ)/5) + 1/5 = 1) := by
  refine ⟨?_, by norm_num [c2State], ?_, by norm_num, by norm_num⟩
  · rw [Vocabulary.from_state.eq_def]
    simp only [c2State]
    norm_num [maxClassId, buildSlots, slotInsert, allSome, List.replicate,
      WordClass.init, WordClass.add]
    rw [Vocabulary.make.eq_def]
    simp [sentinelChain, addSpecialToken, appendOos, numNormalFrom, isSentinelSingleton,
      sentinelMarked, WordClass.init, WordClass.normalize_probs, sosToken, eosToken,
      unkToken, c2Vocab]
    norm_num
  · rw [Vocabulary.get_word_prob]
    simp [c2Vocab, WordClass.get_prob, List.lookup]

/-- Witness for C2 amended: loading `c2State`'s arrays, word 0's loaded
probability is its stored 1/5 divided by class 0's stored total 2/5. -/
theorem c2_from_state_amended_witness :
    ∃ v, Vocabulary.from_state ⟨some ["a", "b", "<s>", "</s>", "<unk>"],
        some [0, 0, 1, 2, 3], some [1/5, 1/5, 1, 1, 1], none⟩ = .ok v ∧
      v.get_word_prob 0 = some
        (if classStoredTotal [0, 0, 1, 2, 3] [1/5, 1/5, 1, 1, 1]
            (List.getD [0, 0, 1, 2, 3] 0 0) = 0
          then 1 / (classStoredSize [0, 0, 1, 2, 3] [1/5, 1/5, 1, 1, 1]
            (List.getD [0, 0, 1, 2, 3] 0 0) : ℚ)
          else List.getD [1/5, 1/5, 1, 1, 1] 0 0 /
            classStoredTotal [0, 0, 1, 2, 3] [1/5, 1/5, 1, 1, 1]
              (List.getD [0, 0, 1, 2, 3] 0 0)) :=
  c2_from_state_amended ["a", "b", "<s>", "</s>", "<unk>"] [0, 0, 1, 2, 3]
    [1/5, 1/5, 1, 1, 1] (by decide) (by decide) (by decide) (by decide) 0 (by decide)
